import Mathlib

/-!
A shallow embedding of the `stampede_map` crate: a Swiss-table-style open-addressing
hash map (`src/lib.rs`) together with its 16-bit candidate bitmask (`src/bitmask.rs`).

Modelling conventions.

* Keys are represented by their 64-bit hash, as a `Nat`: the map itself never stores or
  compares keys, only the full 64-bit hash (`Node.hash`) and its derived 7-bit tag
  (`ctrl_hash`) and starting slot (`modulo`).  The external hash function
  (a process-wide randomly seeded `ahash` state) is outside the embedding.
* Machine integers become `Nat`.  The only places Rust-integer wrap-around could matter
  are `hash & 0x7F`, `offset & (capacity - 1)` and `mask & (mask - 1)`, which are
  modelled exactly with `Nat` bitwise operations; no arithmetic in the code can
  overflow `u64` for any reachable operand.
* Loops become fuel-indexed structural recursions.  Every fuel argument is at least the
  period of the corresponding probe sequence (the probe state never changes while a
  loop spins), so fuel exhaustion — `Option.none` for the mutating operations,
  `GetResult.spin` for lookup — happens exactly when the original loop diverges.
* The dead `counter : AtomicUsize` field of `StampedeMap` (never read or written after
  construction) is omitted.
* `BitMask::matches` (SSE byte-equality plus movemask) is modelled by its bit-identical
  scalar specification: bit `i` of the result is set iff byte `i` of the 16-byte window
  equals the predicate byte.
-/

namespace Stampede

/-- The `Deleted` control byte constant (`0b1000_0000`). -/
def deletedByte : Nat := 128

/-- The `Empty` control byte constant (`0b1111_1110`). -/
def emptyByte : Nat := 254

/-- The `ctrl_hash` function: the low 7 bits of the full hash (`hash & 0x7F`). -/
def ctrlHash (hash : Nat) : Nat := hash &&& 127

/-- The `bucket_size` constant. -/
def bucketSize : Nat := 16

/-- A stored entry: the full 64-bit hash and the value (`struct Node`). -/
structure Node (V : Type) where
  hash : Nat
  value : V
deriving DecidableEq

/-- A data slot (`enum Slot`). -/
inductive Slot (V : Type) where
  | Empty : Slot V
  | Occupied : Node V → Slot V
deriving DecidableEq

variable {V : Type}

/-- Whether a slot is occupied. -/
def Slot.isOcc : Slot V → Bool
  | .Empty => false
  | .Occupied _ => true

/-- Whether a slot is the `Empty` variant. -/
def Slot.isEmptySlot : Slot V → Bool
  | .Empty => true
  | .Occupied _ => false

/-- The map state (`struct StampedeMap`), minus the dead `counter` field. -/
structure StampedeMap (V : Type) where
  data : List (Slot V)
  len : Nat
  capacity : Nat
  ctrl : List Nat
  deleted : Nat
deriving DecidableEq

/-- The `modulo` method: `offset & (capacity - 1)`. -/
def modulo (cap off : Nat) : Nat := off &&& (cap - 1)

/-- Rust's `usize::next_power_of_two`, fuel-indexed: the least power of two that is
at least `max n 1`.  The fuel `n` is enough because the accumulator doubles from 1
and `n ≤ 2 ^ n`. -/
def npotAux (n : Nat) : Nat → Nat → Nat
  | 0, acc => acc
  | fuel + 1, acc => if n ≤ acc then acc else npotAux n fuel (2 * acc)

/-- Rust's `n.next_power_of_two()` (which maps `0` to `1`). -/
def nextPowerOfTwo (n : Nat) : Nat := npotAux n n 1

/-- The `new` constructor: capacity 16, an extra mirror group of 16 control bytes. -/
def mapNew : StampedeMap V :=
  { data := List.replicate bucketSize .Empty
    len := 0
    capacity := bucketSize
    ctrl := List.replicate (bucketSize * 2) emptyByte
    deleted := 0 }

/-- `Vec::resize(n, fill)`: truncate or pad with `fill` to length `n`. -/
def listResize (l : List α) (n : Nat) (fill : α) : List α :=
  if n ≤ l.length then l.take n else l ++ List.replicate (n - l.length) fill

/-- The `with_capacity` constructor: start from `new()`, then set
`capacity = n.next_power_of_two()` and resize `data` to `capacity` and `ctrl` to
`capacity + 16`.  Note there is no `max` with 16: small `n` shrink the arrays. -/
def withCapacity (n : Nat) : StampedeMap V :=
  let m : StampedeMap V := mapNew
  let cap := nextPowerOfTwo n
  { m with
    capacity := cap
    data := listResize m.data cap .Empty
    ctrl := listResize m.ctrl (cap + 16) emptyByte }

/-- The `clear` method: fresh all-`Empty` arrays, `len = deleted = 0`, capacity kept. -/
def clearMap (m : StampedeMap V) : StampedeMap V :=
  { m with
    data := List.replicate m.capacity .Empty
    ctrl := List.replicate (m.capacity + 16) emptyByte
    deleted := 0
    len := 0 }

/-- Fuel-indexed count of trailing zeros (`u16::trailing_zeros`, only ever applied to a
nonzero mask). -/
def ctzAux : Nat → Nat → Nat
  | 0, _ => 0
  | fuel + 1, n => if n % 2 = 1 ∨ n = 0 then 0 else ctzAux fuel (n / 2) + 1

/-- Count of trailing zeros of a nonzero mask; fuel `n` suffices since the argument
halves at every step. -/
def ctz (n : Nat) : Nat := ctzAux n n

/-- Fuel-indexed iteration of a `BitMask`: while the mask is nonzero, yield the position
of the lowest set bit and clear it (`self.mask &= self.mask - 1`). -/
def iterAux : Nat → Nat → List Nat
  | 0, _ => []
  | fuel + 1, m => if m = 0 then [] else ctz m :: iterAux fuel (m &&& (m - 1))

/-- The full iteration of a `BitMask` as a list of yielded offsets; the iterator
returns `None` exactly when this list is exhausted.  Fuel `m` suffices because the
mask strictly decreases at every step. -/
def iterate (m : Nat) : List Nat := iterAux m m

/-- Little-endian mask of the first `n` positions satisfying `f`: bit `i` is set iff
`f i` holds (`i < n`). -/
def maskOfPred (f : Nat → Bool) : Nat → Nat
  | 0 => 0
  | n + 1 => (if f 0 then 1 else 0) + 2 * maskOfPred (fun i => f (i + 1)) n

/-- `BitMask::matches(&ctrl[slot..slot+16], pred)`: bit `i` is set iff the control byte
at `slot + i` equals `pred` (the scalar specification of the SSE compare+movemask). -/
def windowMask (ctrl : List Nat) (slot pred : Nat) : Nat :=
  maskOfPred (fun i => ctrl.getD (slot + i) 0 == pred) 16

/-- The result of a lookup: a value, a definite miss, the `unreachable!()` panic branch,
or divergence of the probe loop. -/
inductive GetResult (V : Type) where
  | found : V → GetResult V
  | absent : GetResult V
  | panic : GetResult V
  | spin : GetResult V
deriving DecidableEq

/-- The body of `get`'s `for item in ctrl_mask | empty_mask` loop: for each candidate
offset, re-read the control byte at the wrapped position; on a tag match inspect the
data slot (an `Empty` data slot is the `unreachable!()` branch, a full-hash match
returns the value); on an `Empty` control byte return a miss; otherwise continue. -/
def scanCands (ctrl : List Nat) (data : List (Slot V)) (cap tag hash slot : Nat) :
    List Nat → Option (GetResult V)
  | [] => none
  | item :: rest =>
    let offset := modulo cap (slot + item)
    let c := ctrl.getD offset 0
    if c = tag then
      match data.getD offset .Empty with
      | .Empty => some .panic
      | .Occupied n =>
        if n.hash = hash then some (.found n.value)
        else scanCands ctrl data cap tag hash slot rest
    else if c = emptyByte then some .absent
    else scanCands ctrl data cap tag hash slot rest

/-- The outer window loop of `get`: load the 16-byte window at `slot`, combine the tag
and `Empty` match masks, scan the candidates, and on no decision advance the window by
16 (mod capacity).  Fuel `capacity + 1` bounds the period of the window sequence. -/
def getLoop (m : StampedeMap V) (hash tag : Nat) : Nat → Nat → GetResult V
  | _, 0 => .spin
  | slot, fuel + 1 =>
    let mask := windowMask m.ctrl slot tag ||| windowMask m.ctrl slot emptyByte
    match scanCands m.ctrl m.data m.capacity tag hash slot (iterate mask) with
    | some r => r
    | none => getLoop m hash tag (modulo m.capacity (slot + 16)) fuel

/-- The `get` method. -/
def getMap (m : StampedeMap V) (hash : Nat) : GetResult V :=
  getLoop m hash (ctrlHash hash) (modulo m.capacity hash) (m.capacity + 1)

/-- The shared linear-probe stop condition of `set` and `delete`: stop on an `Empty`
data slot or on an occupant with the same full hash (advance only past occupants with
a different hash). -/
def probeStop (data : List (Slot V)) (hash idx : Nat) : Bool :=
  match data.getD idx .Empty with
  | .Empty => true
  | .Occupied n => n.hash == hash

/-- A fuel-indexed linear probe: starting at `idx`, step `idx ← (idx + 1) & (cap - 1)`
until `stop` holds; fuel `cap` covers a full cycle of the probe sequence. -/
def probeIdx (stop : Nat → Bool) (cap : Nat) : Nat → Nat → Option Nat
  | _, 0 => none
  | idx, fuel + 1 => if stop idx then some idx else probeIdx stop cap (modulo cap (idx + 1)) fuel

/-- The `set` method after the load-factor check: probe from the hash's home slot,
then write the tag (and its tail mirror when `idx < 16`), unconditionally increment
`len`, and store the node. -/
def setRaw (m : StampedeMap V) (hash : Nat) (v : V) : Option (StampedeMap V) :=
  match probeIdx (probeStop m.data hash) m.capacity (modulo m.capacity hash) m.capacity with
  | none => none
  | some idx =>
    let tag := ctrlHash hash
    let ctrl1 := if idx < 16 then m.ctrl.set (m.capacity + idx) tag else m.ctrl
    some { m with
           ctrl := ctrl1.set idx tag
           len := m.len + 1
           data := m.data.set idx (.Occupied ⟨hash, v⟩) }

/-- One reinsertion during `resize`: probe the new arrays for the first `Empty` data
slot and install the node there with its tag (and tail mirror when `idx < 16`). -/
def resizeInsert (cap : Nat) (tc : List Nat × List (Slot V)) (n : Node V) :
    Option (List Nat × List (Slot V)) :=
  match probeIdx (fun idx => (tc.2.getD idx .Empty).isEmptySlot) cap (modulo cap n.hash) cap with
  | none => none
  | some idx =>
    let tag := ctrlHash n.hash
    let ctrl1 := if idx < 16 then tc.1.set (cap + idx) tag else tc.1
    some (ctrl1.set idx tag, tc.2.set idx (.Occupied n))

/-- The `for slot in old` loop of `resize`: reinsert every occupied slot of the old
data array, in order, into the fresh arrays; `Empty` slots are dropped. -/
def resizeFold (cap : Nat) :
    List Nat × List (Slot V) → List (Slot V) → Option (List Nat × List (Slot V))
  | tc, [] => some tc
  | tc, .Empty :: rest => resizeFold cap tc rest
  | tc, .Occupied n :: rest =>
    match resizeInsert cap tc n with
    | none => none
    | some tc1 => resizeFold cap tc1 rest

/-- The `resize` method: new capacity `(capacity + 1).next_power_of_two()`, fresh
all-`Empty` arrays, `deleted` reset to 0, `len` preserved, occupants reinserted. -/
def resizeMap (m : StampedeMap V) : Option (StampedeMap V) :=
  let cap := nextPowerOfTwo (m.capacity + 1)
  match resizeFold cap (List.replicate (cap + 16) emptyByte, List.replicate cap .Empty) m.data with
  | none => none
  | some tc =>
    some { data := tc.2, len := m.len, capacity := cap, ctrl := tc.1, deleted := 0 }

/-- The `exceeded_load_factor` predicate: `capacity * 3 < (len + deleted) * 4`. -/
def exceededLoadFactor (m : StampedeMap V) : Bool :=
  m.capacity * 3 < (m.len + m.deleted) * 4

/-- The `set` method: resize first when the load factor is exceeded, then insert. -/
def setMap (m : StampedeMap V) (hash : Nat) (v : V) : Option (StampedeMap V) :=
  if exceededLoadFactor m then
    match resizeMap m with
    | none => none
    | some m1 => setRaw m1 hash v
  else setRaw m hash v

/-- The `delete` method: probe from the home slot; on an `Empty` data slot return
unchanged (absent key); on a full-hash match write the `Deleted` byte (and tail mirror
when `idx < 16`), empty the data slot, increment `deleted` and decrement `len`. -/
def deleteMap (m : StampedeMap V) (hash : Nat) : Option (StampedeMap V) :=
  match probeIdx (probeStop m.data hash) m.capacity (modulo m.capacity hash) m.capacity with
  | none => none
  | some idx =>
    match m.data.getD idx .Empty with
    | .Empty => some m
    | .Occupied _ =>
      let ctrl1 := if idx < 16 then m.ctrl.set (m.capacity + idx) deletedByte else m.ctrl
      some { m with
             ctrl := ctrl1.set idx deletedByte
             data := m.data.set idx .Empty
             deleted := m.deleted + 1
             len := m.len - 1 }

/-- A public mutating operation. -/
inductive Op (V : Type) where
  | set : Nat → V → Op V
  | del : Nat → Op V
  | clear : Op V
deriving DecidableEq

/-- Apply one public mutating operation. -/
def applyOp (m : StampedeMap V) : Op V → Option (StampedeMap V)
  | .set h v => setMap m h v
  | .del h => deleteMap m h
  | .clear => some (clearMap m)

/-- Run a sequence of public mutating operations; `none` when some loop diverges. -/
def run (m : StampedeMap V) : List (Op V) → Option (StampedeMap V)
  | [] => some m
  | op :: rest =>
    match applyOp m op with
    | none => none
    | some m1 => run m1 rest

/-- Powers of two, as used for the capacity invariant. -/
def IsPow2 (n : Nat) : Prop := ∃ k, n = 2 ^ k

/-- Count of indices below `n` satisfying a Boolean predicate. -/
def countRange (n : Nat) (f : Nat → Bool) : Nat := (List.range n).countP f

/-- The tail-mirror property: each of the 16 trailing control bytes equals the
corresponding head byte. -/
def tailMirror (m : StampedeMap V) : Prop :=
  ∀ i, i < 16 → m.ctrl.getD (m.capacity + i) 0 = m.ctrl.getD i 0

instance (m : StampedeMap V) : Decidable (tailMirror m) :=
  inferInstanceAs (Decidable (∀ i, i < 16 → _ = _))

/-- The number of occupied slots among the first `cap` entries of a data array. -/
def countOcc (cap : Nat) (data : List (Slot V)) : Nat :=
  countRange cap fun i => (data.getD i .Empty).isOcc

/-- The number of `Deleted` bytes among the first `cap` entries of a control array. -/
def countTombL (cap : Nat) (ctrl : List Nat) : Nat :=
  countRange cap fun i => ctrl.getD i 0 == deletedByte

/-- The number of `Deleted` control bytes of a map (tombstones). -/
def tombCount (m : StampedeMap V) : Nat := countTombL m.capacity m.ctrl

/-- The number of occupied data slots of a map. -/
def occCount (m : StampedeMap V) : Nat := countOcc m.capacity m.data

/-- Coherence of a control byte with its data slot: `Empty` and `Deleted` bytes sit on
empty data slots, and any other byte is the 7-bit tag of the occupant's hash. -/
inductive Coh {V : Type} : Nat → Slot V → Prop
  | empty : Coh emptyByte .Empty
  | tomb : Coh deletedByte .Empty
  | occ (n : Node V) : Coh (ctrlHash n.hash) (.Occupied n)

/-- The structural invariant of a control/data array pair: array lengths, pointwise
coherence, and the tail mirror (meaningful only when the capacity is at least 16). -/
structure TableInv (cap : Nat) (ctrl : List Nat) (data : List (Slot V)) : Prop where
  ctrl_len : ctrl.length = cap + 16
  data_len : data.length = cap
  coh : ∀ i, i < cap → Coh (ctrl.getD i 0) (data.getD i .Empty)
  mirror16 : 16 ≤ cap → ∀ i, i < 16 → ctrl.getD (cap + i) 0 = ctrl.getD i 0

/-- The master invariant of reachable map states. -/
structure Inv (m : StampedeMap V) : Prop where
  cap_pow : IsPow2 m.capacity
  table : TableInv m.capacity m.ctrl m.data
  load : (m.len + m.deleted) * 4 ≤ m.capacity * 3 + 4
  occ_tomb_le : occCount m + tombCount m ≤ m.len + m.deleted
  occ_le_len : occCount m ≤ m.len

/-- The master invariant together with the capacity floor of maps built by `new`. -/
def Inv16 (m : StampedeMap V) : Prop := Inv m ∧ 16 ≤ m.capacity

/-- Whether a slot holds an occupant with the given full hash. -/
def Slot.hashIs : Slot V → Nat → Bool
  | .Empty, _ => false
  | .Occupied n, h => n.hash == h

/-- A hash is absent from the map: no occupied slot carries it. -/
def absentIn (m : StampedeMap V) (h : Nat) : Prop :=
  ∀ i, i < m.capacity → (m.data.getD i .Empty).hashIs h = false

instance (m : StampedeMap V) (h : Nat) : Decidable (absentIn m h) :=
  inferInstanceAs (Decidable (∀ i, i < m.capacity → _ = _))

/-- The wrap-around probe distance from home slot `a` to slot `i` (both below `cap`). -/
def distTo (cap a i : Nat) : Nat := (i + cap - a) % cap

/-- No tombstones in a control band: no byte below `cap` is `Deleted`. -/
def NoTombT (cap : Nat) (ctrl : List Nat) : Prop :=
  ∀ i, i < cap → ctrl.getD i 0 ≠ deletedByte

/-- Each full hash occupies at most one slot of a data array. -/
def UniqueT (cap : Nat) (data : List (Slot V)) : Prop :=
  ∀ i j, i < cap → j < cap →
    ∀ n n', data.getD i .Empty = .Occupied n → data.getD j .Empty = .Occupied n' →
      n.hash = n'.hash → i = j

/-- Probe chains of a data array are unbroken: every slot on the wrap-around path from
an occupant's home slot to its actual slot is occupied. -/
def ChainsT (cap : Nat) (data : List (Slot V)) : Prop :=
  ∀ i n, i < cap → data.getD i .Empty = .Occupied n →
    ∀ t, t < distTo cap (n.hash % cap) i →
      (data.getD ((n.hash % cap + t) % cap) .Empty).isOcc = true

/-- A data array holds a node (at some slot below `cap`). -/
def bindsT (cap : Nat) (data : List (Slot V)) (n : Node V) : Prop :=
  ∃ i, i < cap ∧ data.getD i .Empty = .Occupied n

/-- The occupied nodes of a data array, in slot order. -/
def nodesOf (l : List (Slot V)) : List (Node V) :=
  l.filterMap fun s => match s with
    | .Occupied n => some n
    | .Empty => none

/-- No tombstones: no control byte in the live band is `Deleted`. -/
def NoTomb (m : StampedeMap V) : Prop := NoTombT m.capacity m.ctrl

/-- Each full hash occupies at most one slot. -/
def HashUnique (m : StampedeMap V) : Prop := UniqueT m.capacity m.data

/-- Probe chains are unbroken. -/
def Chains (m : StampedeMap V) : Prop := ChainsT m.capacity m.data

/-- The reference model of an insertion sequence: an association list, most recent
binding first. -/
def specGet (model : List (Nat × V)) (h : Nat) : Option V :=
  (model.find? fun p => p.1 == h).map fun p => p.2

/-- The map's occupied slots realise exactly the bindings of the model. -/
def Contents (m : StampedeMap V) (model : List (Nat × V)) : Prop :=
  ∀ h v, (∃ i, i < m.capacity ∧ m.data.getD i .Empty = .Occupied ⟨h, v⟩) ↔
    specGet model h = some v

/-- The full representation invariant of insertion-only states: the master invariant,
the capacity floor, no tombstones, at most one slot per hash, unbroken probe chains,
and agreement with the reference model. -/
def RFull (m : StampedeMap V) (model : List (Nat × V)) : Prop :=
  Inv m ∧ 16 ≤ m.capacity ∧ NoTomb m ∧ HashUnique m ∧ Chains m ∧ Contents m model

/-- An insertion sequence as a program of `set` operations. -/
def insProg (ins : List (Nat × V)) : List (Op V) := ins.map fun p => .set p.1 p.2

theorem isPow2_pos {n : Nat} (h : IsPow2 n) : 0 < n := by
  obtain ⟨k, rfl⟩ := h
  exact Nat.pos_pow_of_pos k (by omega)

theorem modulo_eq_mod {cap : Nat} (h : IsPow2 cap) (x : Nat) : modulo cap x = x % cap := by
  obtain ⟨k, rfl⟩ := h
  simp [modulo, Nat.and_pow_two_sub_one_eq_mod]

theorem modulo_lt {cap : Nat} (x : Nat) (h : 0 < cap) : modulo cap x < cap :=
  lt_of_le_of_lt Nat.and_le_right (by omega)

theorem ctrlHash_lt (h : Nat) : ctrlHash h < 128 :=
  lt_of_le_of_lt Nat.and_le_right (by norm_num)

theorem ctrlHash_ne_deleted (h : Nat) : ctrlHash h ≠ deletedByte := by
  have := ctrlHash_lt h
  unfold deletedByte
  omega

theorem ctrlHash_ne_empty (h : Nat) : ctrlHash h ≠ emptyByte := by
  have := ctrlHash_lt h
  unfold emptyByte
  omega

theorem getD_set_self {α : Type u} {l : List α} {i : Nat} {a d : α} (h : i < l.length) :
    (l.set i a).getD i d = a := by
  simp [List.getD_eq_getElem?_getD, List.getElem?_set_self h]

theorem getD_set_ne {α : Type u} {l : List α} {i j : Nat} {a d : α} (h : i ≠ j) :
    (l.set i a).getD j d = l.getD j d := by
  simp [List.getD_eq_getElem?_getD, List.getElem?_set_ne h]

theorem getD_replicate {α : Type u} {n i : Nat} {a d : α} :
    (List.replicate n a).getD i d = if i < n then a else d := by
  simp only [List.getD_eq_getElem?_getD, List.getElem?_replicate]
  split <;> simp

theorem listResize_replicate {α : Type u} {k n : Nat} {a : α} :
    listResize (List.replicate k a) n a = List.replicate n a := by
  unfold listResize
  split
  · next hle =>
    rw [List.take_replicate]
    congr 1
    simp at hle
    omega
  · next hgt =>
    simp only [List.length_replicate]
    rw [← List.replicate_add]
    congr 1
    simp at hgt
    omega

theorem countRange_succ (n : Nat) (f : Nat → Bool) :
    countRange (n + 1) f = countRange n f + (if f n then 1 else 0) := by
  simp [countRange, List.range_succ, List.countP_append, List.countP_cons]

theorem countRange_congr {n : Nat} {f g : Nat → Bool} (h : ∀ i, i < n → f i = g i) :
    countRange n f = countRange n g :=
  List.countP_congr fun x hx => by simp [h x (List.mem_range.1 hx)]

theorem countRange_pos {n : Nat} {f : Nat → Bool} :
    0 < countRange n f ↔ ∃ i, i < n ∧ f i = true := by
  simp [countRange, List.countP_pos_iff, List.mem_range]

theorem countRange_le {n : Nat} {f g : Nat → Bool} (h : ∀ i, i < n → f i = true → g i = true) :
    countRange n f ≤ countRange n g :=
  List.countP_mono_left fun x hx hf => h x (List.mem_range.1 hx) hf

theorem countRange_le_self {n : Nat} {f : Nat → Bool} : countRange n f ≤ n := by
  simpa [countRange] using @List.countP_le_length _ f (List.range n)

theorem countRange_add_compl {n : Nat} {f : Nat → Bool} :
    countRange n f + countRange n (fun i => !f i) = n := by
  have h := @List.length_eq_countP_add_countP _ f (List.range n)
  have h2 : (List.range n).countP (fun a => !f a) =
      (List.range n).countP (fun a => decide ¬f a = true) := by
    apply List.countP_congr
    intro x _
    simp
  simp only [countRange]
  rw [h2]
  simp only [List.length_range] at h
  omega

theorem countRange_update {n j : Nat} {f g : Nat → Bool} (hj : j < n)
    (hagree : ∀ i, i < n → i ≠ j → g i = f i) :
    countRange n g + (if f j then 1 else 0) = countRange n f + (if g j then 1 else 0) := by
  induction n with
  | zero => omega
  | succ n ih =>
    rcases Nat.lt_succ_iff_lt_or_eq.1 hj with hlt | rfl
    · have hrec := ih hlt fun i hi hij => hagree i (Nat.lt_succ_of_lt hi) hij
      have hgn : g n = f n := hagree n (Nat.lt_succ_self n) (by omega)
      rw [countRange_succ, countRange_succ, hgn]
      omega
    · have hsame : countRange j g = countRange j f :=
        countRange_congr fun i hi => hagree i (Nat.lt_succ_of_lt hi) (by omega)
      rw [countRange_succ, countRange_succ, hsame]
      omega

theorem countRange_getD {α : Type u} {l : List α} {p : α → Bool} {d : α} :
    countRange l.length (fun i => p (l.getD i d)) = l.countP p := by
  induction l with
  | nil => rfl
  | cons a l ih =>
    have hcomp : ((fun i => p ((a :: l).getD i d)) ∘ Nat.succ) = fun i => p (l.getD i d) := by
      funext i
      rfl
    have hhead : (fun i => p ((a :: l).getD i d)) 0 = p a := rfl
    simp only [countRange, List.length_cons, List.range_succ_eq_map, List.countP_cons,
      List.countP_map, hcomp, hhead] at ih ⊢
    omega

theorem ctzAux_zero {f : Nat} : ctzAux f 0 = 0 := by
  cases f <;> simp [ctzAux]

theorem ctzAux_stable : ∀ f f' n : Nat, n ≤ f → n ≤ f' → ctzAux f n = ctzAux f' n := by
  intro f
  induction f with
  | zero =>
    intro f' n h1 _
    have : n = 0 := by omega
    subst this
    rw [ctzAux_zero, ctzAux_zero]
  | succ f ih =>
    intro f' n h1 h2
    rcases Nat.eq_zero_or_pos n with rfl | hn
    · rw [ctzAux_zero, ctzAux_zero]
    · obtain ⟨f'', rfl⟩ := Nat.exists_eq_succ_of_ne_zero (show f' ≠ 0 by omega)
      by_cases hcond : n % 2 = 1 ∨ n = 0
      · simp [ctzAux, hcond]
      · simp only [ctzAux, if_neg hcond]
        have hlt : n / 2 < n := Nat.div_lt_self hn (by omega)
        rw [ih f'' (n / 2) (by omega) (by omega)]

theorem ctz_odd {n : Nat} (h : n % 2 = 1) : ctz n = 0 := by
  obtain ⟨m, rfl⟩ := Nat.exists_eq_succ_of_ne_zero (show n ≠ 0 by omega)
  simp [ctz, ctzAux, h]

theorem ctz_two_mul {m : Nat} (hm : m ≠ 0) : ctz (2 * m) = ctz m + 1 := by
  obtain ⟨k, hk⟩ := Nat.exists_eq_succ_of_ne_zero (show 2 * m ≠ 0 by omega)
  have hcond : ¬((2 * m) % 2 = 1 ∨ 2 * m = 0) := by omega
  have hdiv : 2 * m / 2 = m := by omega
  calc ctz (2 * m) = ctzAux (k + 1) (2 * m) := by rw [ctz, hk]
    _ = ctzAux k (2 * m / 2) + 1 := by simp only [ctzAux, if_neg hcond]
    _ = ctzAux k m + 1 := by rw [hdiv]
    _ = ctz m + 1 := by rw [ctzAux_stable k m m (by omega) le_rfl, ctz]

theorem iterAux_nil {f : Nat} : iterAux f 0 = [] := by
  cases f <;> simp [iterAux]

theorem iterAux_stable : ∀ f f' m : Nat, m ≤ f → m ≤ f' → iterAux f m = iterAux f' m := by
  intro f
  induction f with
  | zero =>
    intro f' m h1 _
    have : m = 0 := by omega
    subst this
    rw [iterAux_nil, iterAux_nil]
  | succ f ih =>
    intro f' m h1 h2
    rcases Nat.eq_zero_or_pos m with rfl | hm
    · rw [iterAux_nil, iterAux_nil]
    · obtain ⟨f'', rfl⟩ := Nat.exists_eq_succ_of_ne_zero (show f' ≠ 0 by omega)
      simp only [iterAux, if_neg (show ¬m = 0 by omega)]
      have hle : m &&& (m - 1) ≤ m - 1 := Nat.and_le_right
      rw [ih f'' (m &&& (m - 1)) (by omega) (by omega)]

theorem iterate_nil : iterate 0 = [] := rfl

theorem iterate_step {m : Nat} (hm : m ≠ 0) :
    iterate m = ctz m :: iterate (m &&& (m - 1)) := by
  obtain ⟨k, hk⟩ := Nat.exists_eq_succ_of_ne_zero hm
  have hle : m &&& (m - 1) ≤ m - 1 := Nat.and_le_right
  calc iterate m = iterAux (k + 1) m := by rw [iterate, hk]
    _ = ctz m :: iterAux k (m &&& (m - 1)) := by simp only [iterAux, if_neg hm]
    _ = ctz m :: iterate (m &&& (m - 1)) := by
        rw [iterAux_stable k (m &&& (m - 1)) (m &&& (m - 1)) (by omega) le_rfl, iterate]

theorem testBit_two_mul_zero {m : Nat} : (2 * m).testBit 0 = false := by
  simp [Nat.testBit_zero, Nat.mul_mod_right]

theorem testBit_two_mul_add_one_zero {m : Nat} : (2 * m + 1).testBit 0 = true := by
  have : (2 * m + 1) % 2 = 1 := by omega
  simp [Nat.testBit_zero, this]

theorem testBit_two_mul_succ {m i : Nat} : (2 * m).testBit (i + 1) = m.testBit i := by
  rw [Nat.testBit_succ]
  congr 1
  omega

theorem testBit_two_mul_add_one_succ {m i : Nat} : (2 * m + 1).testBit (i + 1) = m.testBit i := by
  rw [Nat.testBit_succ]
  congr 1
  omega

theorem land_odd_pred {m : Nat} : (2 * m + 1) &&& (2 * m) = 2 * m := by
  apply Nat.eq_of_testBit_eq
  intro i
  cases i with
  | zero => simp [Nat.testBit_and, testBit_two_mul_zero, testBit_two_mul_add_one_zero]
  | succ i =>
    simp [Nat.testBit_and, testBit_two_mul_succ, testBit_two_mul_add_one_succ]

theorem land_even_pred {m : Nat} (hm : m ≠ 0) :
    (2 * m) &&& (2 * m - 1) = 2 * (m &&& (m - 1)) := by
  have h1 : 2 * m - 1 = 2 * (m - 1) + 1 := by omega
  rw [h1]
  apply Nat.eq_of_testBit_eq
  intro i
  cases i with
  | zero =>
    simp [Nat.testBit_and, testBit_two_mul_zero]
  | succ i =>
    simp [Nat.testBit_and, testBit_two_mul_succ, testBit_two_mul_add_one_succ]

theorem iterate_two_mul (m : Nat) : iterate (2 * m) = (iterate m).map (fun x => x + 1) := by
  induction m using Nat.strong_induction_on with
  | _ m ih =>
    rcases Nat.eq_zero_or_pos m with rfl | hm
    · simp [iterate_nil]
    · rw [iterate_step (show 2 * m ≠ 0 by omega), iterate_step (show m ≠ 0 by omega)]
      rw [ctz_two_mul (by omega), land_even_pred (by omega)]
      have hless : m &&& (m - 1) < m := lt_of_le_of_lt Nat.and_le_right (by omega)
      rw [ih (m &&& (m - 1)) hless]
      simp

theorem iterate_two_mul_add_one (m : Nat) :
    iterate (2 * m + 1) = 0 :: (iterate m).map (fun x => x + 1) := by
  rw [iterate_step (show 2 * m + 1 ≠ 0 by omega)]
  have h1 : 2 * m + 1 - 1 = 2 * m := by omega
  rw [h1, land_odd_pred, ctz_odd (by omega), iterate_two_mul]

theorem iterate_eq_bitIndices (m : Nat) : iterate m = Nat.bitIndices m := by
  induction m using Nat.strong_induction_on with
  | _ m ih =>
    rcases Nat.eq_zero_or_pos m with rfl | hm
    · simp [iterate_nil]
    · rcases Nat.mod_two_eq_zero_or_one m with h2 | h2
      · have hm2 : m = 2 * (m / 2) := by omega
        rw [hm2, iterate_two_mul, Nat.bitIndices_two_mul, ih (m / 2) (by omega)]
      · have hm2 : m = 2 * (m / 2) + 1 := by omega
        rw [hm2, iterate_two_mul_add_one, Nat.bitIndices_two_mul_add_one, ih (m / 2) (by omega)]

theorem mem_iterate (m : Nat) : ∀ i, i ∈ iterate m ↔ m.testBit i = true := by
  induction m using Nat.strong_induction_on with
  | _ m ih =>
    intro i
    rcases Nat.eq_zero_or_pos m with rfl | hm
    · simp [iterate_nil]
    · rcases Nat.mod_two_eq_zero_or_one m with h2 | h2
      · have hm2 : m = 2 * (m / 2) := by omega
        rw [hm2, iterate_two_mul]
        cases i with
        | zero => simp [testBit_two_mul_zero]
        | succ i =>
          rw [testBit_two_mul_succ, ← ih (m / 2) (by omega) i]
          simp [List.mem_map]
      · have hm2 : m = 2 * (m / 2) + 1 := by omega
        rw [hm2, iterate_two_mul_add_one]
        cases i with
        | zero =>
          simp
          omega
        | succ i =>
          rw [testBit_two_mul_add_one_succ, ← ih (m / 2) (by omega) i]
          simp [List.mem_map]

theorem iterate_sorted (m : Nat) : List.Sorted (fun a b => a < b) (iterate m) := by
  rw [iterate_eq_bitIndices]
  exact Nat.bitIndices_sorted

theorem mem_iterate_lt {m i k : Nat} (hm : m < 2 ^ k) (hi : i ∈ iterate m) : i < k := by
  by_contra hik
  have hk : 2 ^ k ≤ 2 ^ i := Nat.pow_le_pow_right (by omega) (by omega)
  have := (mem_iterate m i).1 hi
  rw [Nat.testBit_lt_two_pow (by omega)] at this
  exact Bool.false_ne_true this

theorem probeIdx_some {stop : Nat → Bool} {cap idx fuel j : Nat} (hc : 0 < cap)
    (hidx : idx < cap) (h : probeIdx stop cap idx fuel = some j) :
    j < cap ∧ stop j = true := by
  induction fuel generalizing idx with
  | zero => simp [probeIdx] at h
  | succ fuel ih =>
    rw [probeIdx] at h
    split at h
    · next hs =>
      cases h
      exact ⟨hidx, hs⟩
    · exact ih (modulo_lt _ hc) h

theorem probeIdx_none_of_all_false {stop : Nat → Bool} {cap idx fuel : Nat} (hc : 0 < cap)
    (hidx : idx < cap) (h : ∀ i, i < cap → stop i = false) :
    probeIdx stop cap idx fuel = none := by
  induction fuel generalizing idx with
  | zero => rfl
  | succ fuel ih =>
    rw [probeIdx, h idx hidx]
    simp only [Bool.false_eq_true, if_false]
    exact ih (modulo_lt _ hc)

theorem probeIdx_reaches {stop : Nat → Bool} {cap idx d fuel : Nat} (hp : IsPow2 cap)
    (hidx : idx < cap) (hd : stop ((idx + d) % cap) = true)
    (hbefore : ∀ t, t < d → stop ((idx + t) % cap) = false) (hfuel : d < fuel) :
    probeIdx stop cap idx fuel = some ((idx + d) % cap) := by
  have hc : 0 < cap := isPow2_pos hp
  induction d generalizing idx fuel with
  | zero =>
    obtain ⟨fuel, rfl⟩ := Nat.exists_eq_succ_of_ne_zero (by omega : fuel ≠ 0)
    rw [probeIdx]
    simp only [Nat.add_zero] at hd
    rw [Nat.mod_eq_of_lt hidx] at hd
    rw [hd]
    simp [Nat.mod_eq_of_lt hidx]
  | succ d ih =>
    obtain ⟨fuel, rfl⟩ := Nat.exists_eq_succ_of_ne_zero (by omega : fuel ≠ 0)
    rw [probeIdx]
    have h0 : stop idx = false := by
      have := hbefore 0 (by omega)
      rwa [Nat.add_zero, Nat.mod_eq_of_lt hidx] at this
    rw [h0]
    simp only [Bool.false_eq_true, if_false]
    rw [modulo_eq_mod hp]
    have hshift : ∀ t, ((idx + 1) % cap + t) % cap = (idx + 1 + t) % cap := by
      intro t
      rw [Nat.mod_add_mod]
    have hd' : stop (((idx + 1) % cap + d) % cap) = true := by
      rw [hshift]
      have : idx + 1 + d = idx + (d + 1) := by omega
      rw [this]
      exact hd
    have hbefore' : ∀ t, t < d → stop (((idx + 1) % cap + t) % cap) = false := by
      intro t ht
      rw [hshift]
      have : idx + 1 + t = idx + (t + 1) := by omega
      rw [this]
      exact hbefore (t + 1) (by omega)
    have hrec := ih (Nat.mod_lt (idx + 1) hc) hd' hbefore' (show d < fuel by omega)
    rw [hrec, hshift]
    have harg : idx + 1 + d = idx + (d + 1) := by omega
    rw [harg]

theorem probe_first_exists {stop : Nat → Bool} {cap idx : Nat} (hc : 0 < cap) (hidx : idx < cap)
    (hex : ∃ i, i < cap ∧ stop i = true) :
    ∃ d, d < cap ∧ stop ((idx + d) % cap) = true ∧
      ∀ t, t < d → stop ((idx + t) % cap) = false := by
  obtain ⟨i, hi, hsi⟩ := hex
  have hwit : stop ((idx + (i + (cap - idx)) % cap) % cap) = true := by
    have h1 : (idx + (i + (cap - idx)) % cap) % cap = (idx + (i + (cap - idx))) % cap :=
      Nat.add_mod_mod ..
    have h2 : idx + (i + (cap - idx)) = i + cap := by omega
    rw [h1, h2, Nat.add_mod_right, Nat.mod_eq_of_lt hi]
    exact hsi
  have hex2 : ∃ t, stop ((idx + t) % cap) = true := ⟨_, hwit⟩
  refine ⟨Nat.find hex2, ?_, Nat.find_spec hex2, fun t ht => ?_⟩
  · have hle : Nat.find hex2 ≤ (i + (cap - idx)) % cap := Nat.find_min' hex2 hwit
    exact lt_of_le_of_lt hle (Nat.mod_lt _ hc)
  · have := Nat.find_min hex2 ht
    simpa using this

theorem probeIdx_success {stop : Nat → Bool} {cap idx : Nat} (hp : IsPow2 cap) (hidx : idx < cap)
    (hex : ∃ i, i < cap ∧ stop i = true) :
    ∃ d, d < cap ∧ stop ((idx + d) % cap) = true ∧
      (∀ t, t < d → stop ((idx + t) % cap) = false) ∧
      probeIdx stop cap idx cap = some ((idx + d) % cap) := by
  obtain ⟨d, hd, hstop, hbefore⟩ := probe_first_exists (isPow2_pos hp) hidx hex
  exact ⟨d, hd, hstop, hbefore, probeIdx_reaches hp hidx hstop hbefore hd⟩

theorem testBit_maskOfPred :
    ∀ (n : Nat) (f : Nat → Bool) (i : Nat),
      (maskOfPred f n).testBit i = (decide (i < n) && f i) := by
  intro n
  induction n with
  | zero =>
    intro f i
    simp [maskOfPred]
  | succ n ih =>
    intro f i
    cases i with
    | zero =>
      by_cases h0 : f 0
      · have hmod : ((1 : Nat) + 2 * maskOfPred (fun i => f (i + 1)) n) % 2 = 1 := by omega
        simp [maskOfPred, h0, Nat.testBit_zero, hmod]
      · have hmod : ((0 : Nat) + 2 * maskOfPred (fun i => f (i + 1)) n) % 2 = 0 := by omega
        simp [maskOfPred, h0, Nat.testBit_zero, hmod]
    | succ j =>
      have hdiv : ((if f 0 then 1 else 0) + 2 * maskOfPred (fun i => f (i + 1)) n) / 2 =
          maskOfPred (fun i => f (i + 1)) n := by
        by_cases h0 : f 0 = true
        · rw [if_pos h0]
          omega
        · rw [if_neg h0]
          omega
      rw [maskOfPred, Nat.testBit_succ, hdiv, ih]
      simp only [Nat.add_lt_add_iff_right]

theorem maskOfPred_lt : ∀ (n : Nat) (f : Nat → Bool), maskOfPred f n < 2 ^ n := by
  intro n
  induction n with
  | zero =>
    intro f
    simp [maskOfPred]
  | succ n ih =>
    intro f
    have h := ih fun i => f (i + 1)
    have h2 : (2 : Nat) ^ (n + 1) = 2 * 2 ^ n := by ring
    rw [maskOfPred, h2]
    by_cases h0 : f 0 = true
    · rw [if_pos h0]
      omega
    · rw [if_neg h0]
      omega

theorem testBit_windowMask {ctrl : List Nat} {slot pred i : Nat} :
    (windowMask ctrl slot pred).testBit i =
      (decide (i < 16) && (ctrl.getD (slot + i) 0 == pred)) := by
  rw [windowMask, testBit_maskOfPred]

theorem windowMask_lt {ctrl : List Nat} {slot pred : Nat} : windowMask ctrl slot pred < 2 ^ 16 :=
  maskOfPred_lt 16 _

theorem Coh.occupied_tag {c : Nat} {n : Node V} (h : Coh c (.Occupied n)) :
    c = ctrlHash n.hash := by
  cases h
  rfl

theorem Coh.tag_occupied {c : Nat} {s : Slot V} (h : Coh c s) (hc : c < 128) :
    ∃ n, s = .Occupied n ∧ ctrlHash n.hash = c := by
  cases h with
  | empty => norm_num [emptyByte] at hc
  | tomb => norm_num [deletedByte] at hc
  | occ n => exact ⟨n, rfl, rfl⟩

theorem Coh.empty_inv {c : Nat} (h : Coh c (.Empty : Slot V)) :
    c = emptyByte ∨ c = deletedByte := by
  cases h with
  | empty => exact Or.inl rfl
  | tomb => exact Or.inr rfl

theorem Coh.byte_cases {c : Nat} {s : Slot V} (h : Coh c s) :
    c = emptyByte ∨ c = deletedByte ∨ c < 128 := by
  cases h with
  | empty => exact Or.inl rfl
  | tomb => exact Or.inr (Or.inl rfl)
  | occ n => exact Or.inr (Or.inr (ctrlHash_lt _))

theorem tableInv_insert {cap : Nat} {ctrl : List Nat} {data : List (Slot V)} {idx b : Nat}
    {s : Slot V} (ht : TableInv cap ctrl data) (hidx : idx < cap) (hcoh : Coh b s) :
    TableInv cap ((if idx < 16 then ctrl.set (cap + idx) b else ctrl).set idx b)
      (data.set idx s) := by
  have hctrl1len : (if idx < 16 then ctrl.set (cap + idx) b else ctrl).length = cap + 16 := by
    split <;> simp [ht.ctrl_len]
  have hinner : ∀ j, j < cap →
      (if idx < 16 then ctrl.set (cap + idx) b else ctrl).getD j 0 = ctrl.getD j 0 := by
    intro j hj
    split
    · exact getD_set_ne (by omega)
    · rfl
  constructor
  · simp [hctrl1len]
  · simp [ht.data_len]
  · intro i hi
    by_cases hieq : i = idx
    · subst hieq
      have hd : (data.set i s).getD i .Empty = s := by
        apply getD_set_self
        rw [ht.data_len]
        omega
      have hc2 : ((if i < 16 then ctrl.set (cap + i) b else ctrl).set i b).getD i 0 = b := by
        apply getD_set_self
        rw [hctrl1len]
        omega
      rw [hd, hc2]
      exact hcoh
    · rw [getD_set_ne (show idx ≠ i by omega), getD_set_ne (show idx ≠ i by omega),
        hinner i hi]
      exact ht.coh i hi
  · intro hcap16 i hi16
    by_cases hieq : i = idx
    · subst hieq
      have h1 : ((if i < 16 then ctrl.set (cap + i) b else ctrl).set i b).getD i 0 = b :=
        getD_set_self (by rw [hctrl1len]; omega)
      have h2 : ((if i < 16 then ctrl.set (cap + i) b else ctrl).set i b).getD (cap + i) 0
          = b := by
        rw [getD_set_ne (show i ≠ cap + i by omega)]
        rw [if_pos hi16]
        exact getD_set_self (by rw [ht.ctrl_len]; omega)
      rw [h1, h2]
    · have h1 : ((if idx < 16 then ctrl.set (cap + idx) b else ctrl).set idx b).getD i 0 =
          ctrl.getD i 0 := by
        rw [getD_set_ne (show idx ≠ i by omega)]
        exact hinner i (by omega)
      have h2 : ((if idx < 16 then ctrl.set (cap + idx) b else ctrl).set idx b).getD
          (cap + i) 0 = ctrl.getD (cap + i) 0 := by
        rw [getD_set_ne (show idx ≠ cap + i by omega)]
        split
        · exact getD_set_ne (by omega)
        · rfl
      rw [h1, h2]
      exact ht.mirror16 hcap16 i hi16

theorem npotAux_of_le {n f acc : Nat} (h : n ≤ acc) : npotAux n f acc = acc := by
  cases f <;> simp [npotAux, h]

theorem npotAux_pow : ∀ (f n i : Nat), IsPow2 (npotAux n f (2 ^ i)) := by
  intro f
  induction f with
  | zero =>
    intro n i
    exact ⟨i, rfl⟩
  | succ f ih =>
    intro n i
    by_cases h : n ≤ 2 ^ i
    · rw [npotAux, if_pos h]
      exact ⟨i, rfl⟩
    · have h2 : (2 : Nat) * 2 ^ i = 2 ^ (i + 1) := by ring
      rw [npotAux, if_neg h, h2]
      exact ih n (i + 1)

theorem nextPowerOfTwo_pow (n : Nat) : IsPow2 (nextPowerOfTwo n) := by
  have h := npotAux_pow n n 0
  simpa [nextPowerOfTwo] using h

theorem npotAux_ge : ∀ (f n i : Nat), n ≤ 2 ^ i * 2 ^ f → n ≤ npotAux n f (2 ^ i) := by
  intro f
  induction f with
  | zero =>
    intro n i h
    rw [npotAux]
    simpa using h
  | succ f ih =>
    intro n i h
    by_cases hle : n ≤ 2 ^ i
    · rwa [npotAux, if_pos hle]
    · have h2 : (2 : Nat) * 2 ^ i = 2 ^ (i + 1) := by ring
      rw [npotAux, if_neg hle, h2]
      apply ih n (i + 1)
      calc n ≤ 2 ^ i * 2 ^ (f + 1) := h
        _ = 2 ^ (i + 1) * 2 ^ f := by ring

theorem nextPowerOfTwo_ge (n : Nat) : n ≤ nextPowerOfTwo n := by
  have h : n ≤ 2 ^ 0 * 2 ^ n := by
    have := Nat.lt_two_pow n
    omega
  simpa [nextPowerOfTwo] using npotAux_ge n n 0 h

theorem npotAux_reach : ∀ (f k i : Nat), i ≤ k → k + 1 - i ≤ f →
    npotAux (2 ^ k + 1) f (2 ^ i) = 2 ^ (k + 1) := by
  intro f
  induction f with
  | zero =>
    intro k i hik hf
    omega
  | succ f ih =>
    intro k i hik hf
    have hnot : ¬(2 ^ k + 1 ≤ 2 ^ i) := by
      have : (2 : Nat) ^ i ≤ 2 ^ k := Nat.pow_le_pow_right (by omega) hik
      omega
    have h2 : (2 : Nat) * 2 ^ i = 2 ^ (i + 1) := by ring
    rw [npotAux, if_neg hnot, h2]
    rcases Nat.eq_or_lt_of_le hik with rfl | hlt
    · apply npotAux_of_le
      have h1 : (1 : Nat) ≤ 2 ^ i := Nat.one_le_two_pow
      have h3 : (2 : Nat) ^ (i + 1) = 2 * 2 ^ i := by ring
      omega
    · exact ih k (i + 1) (by omega) (by omega)

theorem nextPowerOfTwo_double (k : Nat) : nextPowerOfTwo (2 ^ k + 1) = 2 ^ (k + 1) := by
  have hfuel : k + 1 - 0 ≤ 2 ^ k + 1 := by
    have := Nat.lt_two_pow k
    omega
  have h := npotAux_reach (2 ^ k + 1) k 0 (by omega) hfuel
  simpa [nextPowerOfTwo] using h

theorem add_distTo {cap a i : Nat} (ha : a < cap) (hi : i < cap) :
    (a + distTo cap a i) % cap = i := by
  unfold distTo
  rw [Nat.add_mod_mod]
  have h1 : a + (i + cap - a) = i + cap := by omega
  rw [h1, Nat.add_mod_right, Nat.mod_eq_of_lt hi]

theorem distTo_add {cap a t : Nat} (ha : a < cap) (ht : t < cap) :
    distTo cap a ((a + t) % cap) = t := by
  unfold distTo
  rcases Nat.lt_or_ge (a + t) cap with hlt | hge
  · rw [Nat.mod_eq_of_lt hlt]
    have h1 : a + t + cap - a = t + cap := by omega
    rw [h1, Nat.add_mod_right, Nat.mod_eq_of_lt ht]
  · have hs : (a + t) % cap = a + t - cap := by
      have hlt2 : a + t - cap < cap := by omega
      rw [Nat.mod_eq_sub_mod hge, Nat.mod_eq_of_lt hlt2]
    rw [hs]
    have h1 : a + t - cap + cap - a = t := by omega
    rw [h1, Nat.mod_eq_of_lt ht]

theorem distTo_lt {cap a i : Nat} (hc : 0 < cap) : distTo cap a i < cap :=
  Nat.mod_lt _ hc

theorem Slot.isOcc_false_iff {s : Slot V} : s.isOcc = false ↔ s = .Empty := by
  cases s <;> simp [Slot.isOcc]

theorem Slot.isOcc_true_iff {s : Slot V} : s.isOcc = true ↔ ∃ n, s = .Occupied n := by
  cases s <;> simp [Slot.isOcc]

theorem Slot.isEmptySlot_iff {s : Slot V} : s.isEmptySlot = true ↔ s = .Empty := by
  cases s <;> simp [Slot.isEmptySlot]

theorem countOcc_set {cap : Nat} {data : List (Slot V)} {idx : Nat} {s : Slot V}
    (hidx : idx < cap) (hlen : data.length = cap) :
    countOcc cap (data.set idx s) + (if (data.getD idx .Empty).isOcc then 1 else 0) =
      countOcc cap data + (if s.isOcc then 1 else 0) := by
  have hself : (data.set idx s).getD idx .Empty = s := getD_set_self (by omega)
  have h := @countRange_update cap idx
    (fun i => (data.getD i .Empty).isOcc)
    (fun i => ((data.set idx s).getD i .Empty).isOcc) hidx
    (fun i _ hij => by
      show ((data.set idx s).getD i .Empty).isOcc = (data.getD i .Empty).isOcc
      rw [getD_set_ne (show idx ≠ i by omega)])
  simp only at h
  simp only [hself] at h
  unfold countOcc
  exact h

theorem countTomb_write {cap : Nat} {ctrl : List Nat} {idx b : Nat}
    (hidx : idx < cap) (hlen : ctrl.length = cap + 16) :
    countTombL cap ((if idx < 16 then ctrl.set (cap + idx) b else ctrl).set idx b) +
      (if ctrl.getD idx 0 == deletedByte then 1 else 0) =
      countTombL cap ctrl + (if b == deletedByte then 1 else 0) := by
  have hctrl1len : (if idx < 16 then ctrl.set (cap + idx) b else ctrl).length = cap + 16 := by
    split <;> simp [hlen]
  have hself : ((if idx < 16 then ctrl.set (cap + idx) b else ctrl).set idx b).getD idx 0 = b :=
    getD_set_self (by omega)
  have hother : ∀ i, i < cap → i ≠ idx →
      ((if idx < 16 then ctrl.set (cap + idx) b else ctrl).set idx b).getD i 0 =
        ctrl.getD i 0 := by
    intro i hi hij
    rw [getD_set_ne (show idx ≠ i by omega)]
    split
    · exact getD_set_ne (by omega)
    · rfl
  have h := @countRange_update cap idx
    (fun i => ctrl.getD i 0 == deletedByte)
    (fun i =>
      ((if idx < 16 then ctrl.set (cap + idx) b else ctrl).set idx b).getD i 0 == deletedByte)
    hidx (fun i hi hij => by
      show (((if idx < 16 then ctrl.set (cap + idx) b else ctrl).set idx b).getD i 0
        == deletedByte) = (ctrl.getD i 0 == deletedByte)
      rw [hother i hi hij])
  simp only at h
  simp only [hself] at h
  unfold countTombL
  exact h

theorem setRaw_inv {m : StampedeMap V} {h : Nat} {v : V} {m' : StampedeMap V}
    (hm : Inv m)
    (hroom : (m.len + 1 + m.deleted) * 4 ≤ m.capacity * 3 + 4)
    (hs : setRaw m h v = some m') :
    Inv m' ∧ m'.capacity = m.capacity ∧ m'.len = m.len + 1 ∧ m'.deleted = m.deleted := by
  have hc : 0 < m.capacity := isPow2_pos hm.cap_pow
  cases hpr : probeIdx (probeStop m.data h) m.capacity (modulo m.capacity h) m.capacity with
  | none => simp [setRaw, hpr] at hs
  | some idx =>
    obtain ⟨hidx, hstop⟩ := probeIdx_some hc (modulo_lt _ hc) hpr
    simp only [setRaw, hpr] at hs
    cases hs
    refine ⟨⟨hm.cap_pow, ?_, hroom, ?_, ?_⟩, rfl, rfl, rfl⟩
    · exact tableInv_insert hm.table hidx (Coh.occ ⟨h, v⟩)
    all_goals {
      have hocc := @countOcc_set _ m.capacity m.data idx (.Occupied ⟨h, v⟩) hidx
        hm.table.data_len
      have htomb := @countTomb_write m.capacity m.ctrl idx (ctrlHash h) hidx
        hm.table.ctrl_len
      have htag : (ctrlHash h == deletedByte) = false := by
        have := ctrlHash_ne_deleted h
        simp [this]
      simp only [htag] at htomb
      have hole := hm.occ_tomb_le
      have holen := hm.occ_le_len
      dsimp only [occCount, tombCount] at hole holen ⊢
      rcases hso : (m.data.getD idx .Empty).isOcc with _ | _
      · -- previously empty: the old byte is Empty or Deleted
        simp only [hso] at hocc
        have hslot : m.data.getD idx .Empty = .Empty := Slot.isOcc_false_iff.1 hso
        have hbyte := hm.table.coh idx hidx
        rw [hslot] at hbyte
        rcases hbyte.empty_inv with hbe | hbd
        · have hbb : (m.ctrl.getD idx 0 == deletedByte) = false := by
            rw [hbe]
            decide
          simp only [hbb] at htomb
          simp [Slot.isOcc] at hocc htomb
          omega
        · have hbb : (m.ctrl.getD idx 0 == deletedByte) = true := by
            rw [hbd]
            decide
          simp only [hbb] at htomb
          simp [Slot.isOcc] at hocc htomb
          omega
      · -- previously occupied with the same hash: counts unchanged
        simp only [hso] at hocc
        obtain ⟨n, hslot⟩ := Slot.isOcc_true_iff.1 hso
        have hbyte := hm.table.coh idx hidx
        rw [hslot] at hbyte
        have hbtag := hbyte.occupied_tag
        have hbb : (m.ctrl.getD idx 0 == deletedByte) = false := by
          rw [hbtag]
          have := ctrlHash_ne_deleted n.hash
          simp [this]
        simp only [hbb] at htomb
        simp [Slot.isOcc] at hocc htomb
        omega
    }

theorem Slot.isEmptySlot_false_iff {s : Slot V} : s.isEmptySlot = false ↔ s.isOcc = true := by
  cases s <;> simp [Slot.isEmptySlot, Slot.isOcc]

theorem countRange_false {n : Nat} {f : Nat → Bool} (h : ∀ i, i < n → f i = false) :
    countRange n f = 0 := by
  induction n with
  | zero => rfl
  | succ n ih =>
    rw [countRange_succ, h n (by omega), ih fun i hi => h i (by omega)]
    simp

theorem countOcc_replicate {cap : Nat} :
    countOcc cap (List.replicate cap (.Empty : Slot V)) = 0 := by
  apply countRange_false
  intro i hi
  rw [getD_replicate, if_pos hi]
  rfl

theorem countTomb_replicate {cap : Nat} :
    countTombL cap (List.replicate (cap + 16) emptyByte) = 0 := by
  apply countRange_false
  intro i hi
  rw [getD_replicate, if_pos (by omega : i < cap + 16)]
  decide

theorem tableInv_replicate {cap : Nat} :
    TableInv cap (List.replicate (cap + 16) emptyByte)
      (List.replicate cap (.Empty : Slot V)) := by
  refine ⟨by simp, by simp, ?_, ?_⟩
  · intro i hi
    rw [getD_replicate, getD_replicate, if_pos hi, if_pos (by omega : i < cap + 16)]
    exact Coh.empty
  · intro h16 i hi
    rw [getD_replicate, getD_replicate, if_pos (by omega : cap + i < cap + 16),
      if_pos (by omega : i < cap + 16)]

theorem inv_fresh (cap : Nat) (hp : IsPow2 cap) :
    Inv ({ data := List.replicate cap .Empty, len := 0, capacity := cap,
           ctrl := List.replicate (cap + 16) emptyByte, deleted := 0 } : StampedeMap V) := by
  refine ⟨hp, tableInv_replicate, by show (0 + 0) * 4 ≤ cap * 3 + 4; omega, ?_, ?_⟩
  · dsimp only [occCount, tombCount]
    rw [countOcc_replicate, countTomb_replicate]
  · dsimp only [occCount]
    rw [countOcc_replicate]

theorem inv_mapNew : Inv (mapNew : StampedeMap V) := by
  have h : (mapNew : StampedeMap V) =
      { data := List.replicate 16 .Empty, len := 0, capacity := 16,
        ctrl := List.replicate (16 + 16) emptyByte, deleted := 0 } := rfl
  rw [h]
  exact inv_fresh 16 ⟨4, by norm_num⟩

theorem withCapacity_eq (n : Nat) :
    (withCapacity n : StampedeMap V) =
      { data := List.replicate (nextPowerOfTwo n) .Empty, len := 0,
        capacity := nextPowerOfTwo n,
        ctrl := List.replicate (nextPowerOfTwo n + 16) emptyByte, deleted := 0 } := by
  simp [withCapacity, mapNew, listResize_replicate]

theorem inv_withCapacity (n : Nat) : Inv (withCapacity n : StampedeMap V) := by
  rw [withCapacity_eq]
  exact inv_fresh _ (nextPowerOfTwo_pow n)

theorem pow2_ge_nine {p : Nat} (hp : IsPow2 p) (h9 : 9 ≤ p) : 16 ≤ p := by
  obtain ⟨k, rfl⟩ := hp
  rcases Nat.lt_or_ge k 4 with hk | hk
  · have : (2 : Nat) ^ k ≤ 2 ^ 3 := Nat.pow_le_pow_right (by omega) (by omega)
    norm_num at this
    omega
  · have : (2 : Nat) ^ 4 ≤ 2 ^ k := Nat.pow_le_pow_right (by omega) hk
    norm_num at this
    omega

theorem withCapacity_ge16 {n : Nat} (h9 : 9 ≤ n) :
    16 ≤ (withCapacity n : StampedeMap V).capacity := by
  rw [withCapacity_eq]
  exact pow2_ge_nine (nextPowerOfTwo_pow n) (le_trans h9 (nextPowerOfTwo_ge n))

theorem inv_clear {m : StampedeMap V} (hm : Inv m) :
    Inv (clearMap m) ∧ (clearMap m).capacity = m.capacity :=
  ⟨inv_fresh m.capacity hm.cap_pow, rfl⟩

theorem resizeInsert_ok {cap : Nat} {ctrl : List Nat} {data : List (Slot V)} {nd : Node V}
    (hp : IsPow2 cap) (ht : TableInv cap ctrl data) (hroom : countOcc cap data < cap) :
    ∃ idx d ctrl' data',
      resizeInsert cap (ctrl, data) nd = some (ctrl', data') ∧
      idx < cap ∧ d < cap ∧ idx = (nd.hash % cap + d) % cap ∧
      data.getD idx .Empty = .Empty ∧
      (∀ t, t < d → (data.getD ((nd.hash % cap + t) % cap) .Empty).isOcc = true) ∧
      ctrl' = (if idx < 16 then ctrl.set (cap + idx) (ctrlHash nd.hash) else ctrl).set idx
        (ctrlHash nd.hash) ∧
      data' = data.set idx (.Occupied nd) ∧
      TableInv cap ctrl' data' ∧
      countOcc cap data' = countOcc cap data + 1 ∧
      countTombL cap ctrl' ≤ countTombL cap ctrl := by
  have hc : 0 < cap := isPow2_pos hp
  have hex : ∃ i, i < cap ∧ (data.getD i .Empty).isEmptySlot = true := by
    have hcompl := @countRange_add_compl cap fun i => (data.getD i .Empty).isOcc
    have hpos : 0 < countRange cap fun i => !(data.getD i .Empty).isOcc := by
      have : countOcc cap data = countRange cap fun i => (data.getD i .Empty).isOcc := rfl
      omega
    obtain ⟨i, hi, hneg⟩ := countRange_pos.1 hpos
    refine ⟨i, hi, ?_⟩
    rcases hcase : data.getD i .Empty with _ | nn
    · rfl
    · rw [hcase] at hneg
      simp [Slot.isOcc] at hneg
  have hmod : modulo cap nd.hash = nd.hash % cap := modulo_eq_mod hp _
  obtain ⟨d, hd, hstop, hbefore, hprobe⟩ :=
    probeIdx_success hp (modulo_lt nd.hash hc) hex
  rw [hmod] at hprobe
  refine ⟨(nd.hash % cap + d) % cap, d, _, _, ?_, Nat.mod_lt _ hc, hd, rfl, ?_, ?_, rfl, rfl,
    ?_, ?_, ?_⟩
  · show resizeInsert cap (ctrl, data) nd = _
    simp only [resizeInsert, hmod, hprobe]
  · rw [hmod] at hstop
    exact Slot.isEmptySlot_iff.1 hstop
  · intro t ht2
    have := hbefore t ht2
    rw [hmod] at this
    exact Slot.isEmptySlot_false_iff.1 (by simpa using this)
  · exact tableInv_insert ht (Nat.mod_lt _ hc) (Coh.occ nd)
  · have hempty : data.getD ((nd.hash % cap + d) % cap) .Empty = .Empty := by
      rw [hmod] at hstop
      exact Slot.isEmptySlot_iff.1 hstop
    have h := @countOcc_set _ cap data ((nd.hash % cap + d) % cap) (.Occupied nd)
      (Nat.mod_lt _ hc) ht.data_len
    rw [hempty] at h
    simp only [Slot.isOcc, Bool.false_eq_true, if_false, eq_self_iff_true, if_true] at h
    omega
  · have h := @countTomb_write cap ctrl ((nd.hash % cap + d) % cap) (ctrlHash nd.hash)
      (Nat.mod_lt _ hc) ht.ctrl_len
    have htag : (ctrlHash nd.hash == deletedByte) = false := by
      have := ctrlHash_ne_deleted nd.hash
      simp [this]
    simp only [htag, Bool.false_eq_true, if_false] at h
    omega

theorem resizeFold_ok {cap : Nat} (hp : IsPow2 cap) :
    ∀ (old : List (Slot V)) (ctrl : List Nat) (data : List (Slot V)),
      TableInv cap ctrl data →
      countOcc cap data + old.countP Slot.isOcc < cap →
      ∃ ctrl' data', resizeFold cap (ctrl, data) old = some (ctrl', data') ∧
        TableInv cap ctrl' data' ∧
        countOcc cap data' = countOcc cap data + old.countP Slot.isOcc ∧
        countTombL cap ctrl' ≤ countTombL cap ctrl := by
  intro old
  induction old with
  | nil =>
    intro ctrl data ht hcnt
    exact ⟨ctrl, data, rfl, ht, by simp, le_rfl⟩
  | cons s rest ih =>
    intro ctrl data ht hcnt
    cases s with
    | Empty =>
      have hcnt2 : countOcc cap data + rest.countP Slot.isOcc < cap := by
        rw [List.countP_cons] at hcnt
        simp [Slot.isOcc] at hcnt
        omega
      obtain ⟨ctrl', data', hfold, ht', hocc', htomb'⟩ := ih ctrl data ht hcnt2
      refine ⟨ctrl', data', ?_, ht', ?_, htomb'⟩
      · simpa [resizeFold] using hfold
      · rw [hocc']
        rw [List.countP_cons]
        simp [Slot.isOcc]
    | Occupied nd =>
      have hcntc : (Slot.Occupied nd :: rest).countP Slot.isOcc = rest.countP Slot.isOcc + 1 := by
        rw [List.countP_cons]
        simp [Slot.isOcc]
      have hroom : countOcc cap data < cap := by omega
      obtain ⟨idx, d, ctrl1, data1, hins, hidx, hd, hideq, hempty, hpath, hceq, hdeq, ht1,
        hocc1, htomb1⟩ := resizeInsert_ok hp ht hroom
      have hcnt2 : countOcc cap data1 + rest.countP Slot.isOcc < cap := by
        rw [hocc1]
        omega
      obtain ⟨ctrl', data', hfold, ht', hocc', htomb'⟩ := ih ctrl1 data1 ht1 hcnt2
      refine ⟨ctrl', data', ?_, ht', ?_, le_trans htomb' htomb1⟩
      · show resizeFold cap (ctrl, data) (.Occupied nd :: rest) = some (ctrl', data')
        rw [resizeFold, hins]
        exact hfold
      · rw [hocc', hocc1, hcntc]
        omega

theorem resizeMap_ok {m : StampedeMap V} (hm : Inv m) :
    ∃ m', resizeMap m = some m' ∧ Inv m' ∧ m'.capacity = 2 * m.capacity ∧
      m'.len = m.len ∧ m'.deleted = 0 := by
  obtain ⟨k, hk⟩ := hm.cap_pow
  have hc : 0 < m.capacity := isPow2_pos hm.cap_pow
  have hcap' : nextPowerOfTwo (m.capacity + 1) = 2 * m.capacity := by
    rw [hk, nextPowerOfTwo_double]
    ring
  have hp' : IsPow2 (2 * m.capacity) := ⟨k + 1, by rw [hk]; ring⟩
  have htinit : TableInv (2 * m.capacity)
      (List.replicate (2 * m.capacity + 16) emptyByte)
      (List.replicate (2 * m.capacity) (.Empty : Slot V)) := tableInv_replicate
  have hold : m.data.countP Slot.isOcc = occCount m := by
    have h := @countRange_getD _ m.data Slot.isOcc .Empty
    rw [hm.table.data_len] at h
    exact h.symm
  have hroom : countOcc (2 * m.capacity) (List.replicate (2 * m.capacity) (.Empty : Slot V)) +
      m.data.countP Slot.isOcc < 2 * m.capacity := by
    rw [countOcc_replicate, hold]
    have h1 := hm.occ_le_len
    have h2 := hm.load
    omega
  obtain ⟨ctrl', data', hfold, ht', hocc', htomb'⟩ :=
    resizeFold_ok hp' m.data _ _ htinit hroom
  refine ⟨⟨data', m.len, 2 * m.capacity, ctrl', 0⟩, ?_, ⟨hp', ht', ?_, ?_, ?_⟩, rfl, rfl, rfl⟩
  · show resizeMap m = _
    simp only [resizeMap, hcap', hfold]
  · show (m.len + 0) * 4 ≤ 2 * m.capacity * 3 + 4
    have h2 := hm.load
    omega
  · dsimp only [occCount, tombCount]
    rw [hocc', countOcc_replicate, hold]
    have htz : countTombL (2 * m.capacity)
        (List.replicate (2 * m.capacity + 16) emptyByte) = 0 := countTomb_replicate
    have h1 := hm.occ_le_len
    omega
  · dsimp only [occCount]
    rw [hocc', countOcc_replicate, hold]
    have h1 := hm.occ_le_len
    omega

theorem setMap_inv {m m' : StampedeMap V} {h : Nat} {v : V}
    (hm : Inv m) (hs : setMap m h v = some m') :
    Inv m' ∧ m.capacity ≤ m'.capacity := by
  by_cases hex : exceededLoadFactor m = true
  · rw [setMap, if_pos hex] at hs
    obtain ⟨m1, hr, hm1, hcap1, hlen1, hdel1⟩ := resizeMap_ok hm
    simp only [hr] at hs
    have hroom : (m1.len + 1 + m1.deleted) * 4 ≤ m1.capacity * 3 + 4 := by
      rw [hlen1, hdel1, hcap1]
      have h2 := hm.load
      have hc := isPow2_pos hm.cap_pow
      omega
    obtain ⟨hinv, hcap, _, _⟩ := setRaw_inv hm1 hroom hs
    refine ⟨hinv, ?_⟩
    rw [hcap, hcap1]
    omega
  · rw [setMap, if_neg hex] at hs
    have hnex : ¬(m.capacity * 3 < (m.len + m.deleted) * 4) := by
      simpa [exceededLoadFactor] using hex
    have hroom : (m.len + 1 + m.deleted) * 4 ≤ m.capacity * 3 + 4 := by omega
    obtain ⟨hinv, hcap, _, _⟩ := setRaw_inv hm hroom hs
    exact ⟨hinv, by omega⟩

theorem deleteMap_inv {m m' : StampedeMap V} {h : Nat}
    (hm : Inv m) (hs : deleteMap m h = some m') :
    Inv m' ∧ m'.capacity = m.capacity := by
  have hc : 0 < m.capacity := isPow2_pos hm.cap_pow
  cases hpr : probeIdx (probeStop m.data h) m.capacity (modulo m.capacity h) m.capacity with
  | none => simp [deleteMap, hpr] at hs
  | some idx =>
    obtain ⟨hidx, hstop⟩ := probeIdx_some hc (modulo_lt _ hc) hpr
    simp only [deleteMap, hpr] at hs
    rcases hslot : m.data.getD idx .Empty with _ | n
    · simp only [hslot] at hs
      cases hs
      exact ⟨hm, rfl⟩
    · simp only [hslot] at hs
      cases hs
      have hbyte := hm.table.coh idx hidx
      rw [hslot] at hbyte
      have hbtag := hbyte.occupied_tag
      have hlen1 : 1 ≤ occCount m := by
        apply countRange_pos.2
        refine ⟨idx, hidx, ?_⟩
        rw [hslot]
        rfl
      have hlen : 1 ≤ m.len := le_trans hlen1 hm.occ_le_len
      have hocc := @countOcc_set _ m.capacity m.data idx (.Empty : Slot V) hidx
        hm.table.data_len
      rw [hslot] at hocc
      simp only [Slot.isOcc, eq_self_iff_true, if_true, Bool.false_eq_true, if_false] at hocc
      have htomb := @countTomb_write m.capacity m.ctrl idx deletedByte hidx hm.table.ctrl_len
      have hbb : (m.ctrl.getD idx 0 == deletedByte) = false := by
        rw [hbtag]
        have := ctrlHash_ne_deleted n.hash
        simp [this]
      simp only [hbb, Bool.false_eq_true, if_false, beq_self_eq_true, if_true] at htomb
      refine ⟨⟨hm.cap_pow, ?_, ?_, ?_, ?_⟩, rfl⟩
      · exact tableInv_insert hm.table hidx Coh.tomb
      · show (m.len - 1 + (m.deleted + 1)) * 4 ≤ m.capacity * 3 + 4
        have h2 := hm.load
        omega
      · have hole := hm.occ_tomb_le
        dsimp only [occCount, tombCount] at hole ⊢
        omega
      · have holen := hm.occ_le_len
        dsimp only [occCount] at holen ⊢
        omega

theorem applyOp_inv {m m' : StampedeMap V} {op : Op V} (hm : Inv m)
    (hs : applyOp m op = some m') : Inv m' ∧ m.capacity ≤ m'.capacity := by
  cases op with
  | set h v => exact setMap_inv hm hs
  | del h =>
    obtain ⟨h1, h2⟩ := deleteMap_inv hm hs
    exact ⟨h1, by omega⟩
  | clear =>
    cases hs
    exact ⟨(inv_clear hm).1, le_of_eq (inv_clear hm).2.symm⟩

theorem run_inv {prog : List (Op V)} :
    ∀ {m m' : StampedeMap V}, Inv m → run m prog = some m' →
      Inv m' ∧ m.capacity ≤ m'.capacity := by
  induction prog with
  | nil =>
    intro m m' hm hr
    cases hr
    exact ⟨hm, le_rfl⟩
  | cons op rest ih =>
    intro m m' hm hr
    simp only [run] at hr
    cases hap : applyOp m op with
    | none => rw [hap] at hr; cases hr
    | some m1 =>
      rw [hap] at hr
      obtain ⟨h1, h2⟩ := applyOp_inv hm hap
      obtain ⟨h3, h4⟩ := ih h1 hr
      exact ⟨h3, le_trans h2 h4⟩

theorem inv_tailMirror {m : StampedeMap V} (hm : Inv m) (h16 : 16 ≤ m.capacity) :
    tailMirror m := fun i hi => hm.table.mirror16 h16 i hi

theorem scanCands_ne_panic {m : StampedeMap V} (hm : Inv m) {tag hash slot : Nat}
    (htag : tag < 128) :
    ∀ items, scanCands m.ctrl m.data m.capacity tag hash slot items ≠ some .panic := by
  intro items
  induction items with
  | nil => simp [scanCands]
  | cons item rest ih =>
    have hofflt : modulo m.capacity (slot + item) < m.capacity :=
      modulo_lt _ (isPow2_pos hm.cap_pow)
    show (if m.ctrl.getD (modulo m.capacity (slot + item)) 0 = tag then _ else _) ≠ _
    by_cases hcb : m.ctrl.getD (modulo m.capacity (slot + item)) 0 = tag
    · rw [if_pos hcb]
      have hcoh := hm.table.coh _ hofflt
      rw [hcb] at hcoh
      obtain ⟨n, hslot, _⟩ := hcoh.tag_occupied htag
      rw [hslot]
      show (if n.hash = hash then some (GetResult.found n.value)
        else scanCands m.ctrl m.data m.capacity tag hash slot rest) ≠ some GetResult.panic
      by_cases hh : n.hash = hash
      · rw [if_pos hh]
        simp
      · rw [if_neg hh]
        exact ih
    · rw [if_neg hcb]
      by_cases he : m.ctrl.getD (modulo m.capacity (slot + item)) 0 = emptyByte
      · rw [if_pos he]
        simp
      · rw [if_neg he]
        exact ih

theorem getLoop_ne_panic {m : StampedeMap V} (hm : Inv m) {hash tag : Nat} (htag : tag < 128) :
    ∀ fuel slot, getLoop m hash tag slot fuel ≠ .panic := by
  intro fuel
  induction fuel with
  | zero =>
    intro slot
    simp [getLoop]
  | succ fuel ih =>
    intro slot
    rw [getLoop]
    cases hscan : scanCands m.ctrl m.data m.capacity tag hash slot
        (iterate (windowMask m.ctrl slot tag ||| windowMask m.ctrl slot emptyByte)) with
    | none => exact ih _
    | some r =>
      have hnp := @scanCands_ne_panic V m hm tag hash slot htag
        (iterate (windowMask m.ctrl slot tag ||| windowMask m.ctrl slot emptyByte))
      intro hcontra
      subst hcontra
      rw [hscan] at hnp
      exact hnp rfl

theorem getMap_ne_panic {m : StampedeMap V} (hm : Inv m) (hash : Nat) :
    getMap m hash ≠ .panic :=
  getLoop_ne_panic hm (ctrlHash_lt hash) _ _

theorem window_byte {m : StampedeMap V} (hm : Inv m) (h16 : 16 ≤ m.capacity)
    {slot i : Nat} (hslot : slot < m.capacity) (hi : i < 16) :
    m.ctrl.getD (slot + i) 0 = m.ctrl.getD ((slot + i) % m.capacity) 0 := by
  rcases Nat.lt_or_ge (slot + i) m.capacity with hlt | hge
  · rw [Nat.mod_eq_of_lt hlt]
  · have hmod : (slot + i) % m.capacity = slot + i - m.capacity := by
      rw [Nat.mod_eq_sub_mod hge, Nat.mod_eq_of_lt (by omega)]
    rw [hmod]
    have hj : slot + i - m.capacity < 16 := by omega
    have hmir := hm.table.mirror16 h16 (slot + i - m.capacity) hj
    rw [show m.capacity + (slot + i - m.capacity) = slot + i by omega] at hmir
    exact hmir

theorem candidate_mem {ctrl : List Nat} {slot tag item : Nat} :
    item ∈ iterate (windowMask ctrl slot tag ||| windowMask ctrl slot emptyByte) ↔
      item < 16 ∧ (ctrl.getD (slot + item) 0 = tag ∨ ctrl.getD (slot + item) 0 = emptyByte) := by
  rw [mem_iterate, Nat.testBit_or, testBit_windowMask, testBit_windowMask]
  simp only [Bool.or_eq_true, Bool.and_eq_true, decide_eq_true_eq, beq_iff_eq]
  tauto

theorem scanCands_none {m : StampedeMap V} {tag hash slot : Nat} :
    ∀ items : List Nat,
      (∀ item, item ∈ items →
        m.ctrl.getD (modulo m.capacity (slot + item)) 0 ≠ emptyByte ∧
        (m.ctrl.getD (modulo m.capacity (slot + item)) 0 = tag →
          ∃ n, m.data.getD (modulo m.capacity (slot + item)) .Empty = .Occupied n ∧
            n.hash ≠ hash)) →
      scanCands m.ctrl m.data m.capacity tag hash slot items = none := by
  intro items
  induction items with
  | nil =>
    intro _
    rfl
  | cons item rest ih =>
    intro hyp
    obtain ⟨hne, htag⟩ := hyp item (List.mem_cons_self item rest)
    show (if m.ctrl.getD (modulo m.capacity (slot + item)) 0 = tag then _ else _) = none
    by_cases hc : m.ctrl.getD (modulo m.capacity (slot + item)) 0 = tag
    · rw [if_pos hc]
      obtain ⟨n, hslot2, hneq⟩ := htag hc
      rw [hslot2]
      show (if n.hash = hash then some (GetResult.found n.value)
        else scanCands m.ctrl m.data m.capacity tag hash slot rest) = none
      rw [if_neg hneq]
      exact ih fun x hx => hyp x (List.mem_cons_of_mem _ hx)
    · rw [if_neg hc, if_neg hne]
      exact ih fun x hx => hyp x (List.mem_cons_of_mem _ hx)

theorem scanCands_decide {m : StampedeMap V} {tag hash slot istar : Nat} {r : GetResult V}
    (htaglt : tag < 128)
    (hdec : (m.ctrl.getD (modulo m.capacity (slot + istar)) 0 = tag ∧
              ∃ v, m.data.getD (modulo m.capacity (slot + istar)) .Empty =
                .Occupied ⟨hash, v⟩ ∧ r = .found v) ∨
            (m.ctrl.getD (modulo m.capacity (slot + istar)) 0 = emptyByte ∧ r = .absent)) :
    ∀ items : List Nat, List.Sorted (fun a b => a < b) items → istar ∈ items →
      (∀ item, item ∈ items → item < istar →
        m.ctrl.getD (modulo m.capacity (slot + item)) 0 ≠ emptyByte ∧
        (m.ctrl.getD (modulo m.capacity (slot + item)) 0 = tag →
          ∃ n, m.data.getD (modulo m.capacity (slot + item)) .Empty = .Occupied n ∧
            n.hash ≠ hash)) →
      scanCands m.ctrl m.data m.capacity tag hash slot items = some r := by
  intro items
  induction items with
  | nil =>
    intro _ hmem _
    cases hmem
  | cons item rest ih =>
    intro hsort hmem hcont
    rcases List.sorted_cons.1 hsort with ⟨hlt, hsort2⟩
    by_cases heq : item = istar
    · subst heq
      show (if m.ctrl.getD (modulo m.capacity (slot + item)) 0 = tag then _ else _) = some r
      rcases hdec with ⟨htg, v, hsl, hr⟩ | ⟨hemp, hr⟩
      · rw [if_pos htg, hsl]
        show (if (Node.mk hash v).hash = hash then some (GetResult.found (Node.mk hash v).value)
          else scanCands m.ctrl m.data m.capacity tag hash slot rest) = some r
        rw [if_pos rfl, hr]
      · have hneq : m.ctrl.getD (modulo m.capacity (slot + item)) 0 ≠ tag := by
          rw [hemp]
          unfold emptyByte
          omega
        rw [if_neg hneq, if_pos hemp, hr]
    · have hmem2 : istar ∈ rest := by
        rcases List.mem_cons.1 hmem with h | h
        · exact absurd h.symm heq
        · exact h
      have hitem : item < istar := hlt istar hmem2
      obtain ⟨hne, htag⟩ := hcont item (List.mem_cons_self item rest) hitem
      show (if m.ctrl.getD (modulo m.capacity (slot + item)) 0 = tag then _ else _) = some r
      by_cases hc : m.ctrl.getD (modulo m.capacity (slot + item)) 0 = tag
      · rw [if_pos hc]
        obtain ⟨n, hslot2, hneq⟩ := htag hc
        rw [hslot2]
        show (if n.hash = hash then some (GetResult.found n.value)
          else scanCands m.ctrl m.data m.capacity tag hash slot rest) = some r
        rw [if_neg hneq]
        exact ih hsort2 hmem2 fun x hx hlx => hcont x (List.mem_cons_of_mem _ hx) hlx
      · rw [if_neg hc, if_neg hne]
        exact ih hsort2 hmem2 fun x hx hlx => hcont x (List.mem_cons_of_mem _ hx) hlx

theorem getLoop_windows {m : StampedeMap V} (hm : Inv m) (h16 : 16 ≤ m.capacity)
    {hash D : Nat} {r : GetResult V} (_hD : D < m.capacity)
    (hdec : (m.ctrl.getD ((hash % m.capacity + D) % m.capacity) 0 = ctrlHash hash ∧
              ∃ v, m.data.getD ((hash % m.capacity + D) % m.capacity) .Empty =
                .Occupied ⟨hash, v⟩ ∧ r = .found v) ∨
            (m.ctrl.getD ((hash % m.capacity + D) % m.capacity) 0 = emptyByte ∧ r = .absent))
    (hcont : ∀ t, t < D →
      m.ctrl.getD ((hash % m.capacity + t) % m.capacity) 0 ≠ emptyByte ∧
      (m.ctrl.getD ((hash % m.capacity + t) % m.capacity) 0 = ctrlHash hash →
        ∃ n, m.data.getD ((hash % m.capacity + t) % m.capacity) .Empty = .Occupied n ∧
          n.hash ≠ hash)) :
    ∀ fuel w slot, slot = (hash % m.capacity + 16 * w) % m.capacity → 16 * w ≤ D →
      (D - 16 * w) / 16 < fuel →
      getLoop m hash (ctrlHash hash) slot fuel = r := by
  intro fuel
  induction fuel with
  | zero =>
    intro w slot _ _ hf
    omega
  | succ fuel ih =>
    intro w slot hslot hwD hfuel
    have hc : 0 < m.capacity := isPow2_pos hm.cap_pow
    have hslotlt : slot < m.capacity := by
      rw [hslot]
      exact Nat.mod_lt _ hc
    have hpos : ∀ item, modulo m.capacity (slot + item) =
        (hash % m.capacity + (16 * w + item)) % m.capacity := by
      intro item
      rw [modulo_eq_mod hm.cap_pow, hslot, Nat.mod_add_mod]
      congr 1
      omega
    have hbyte : ∀ item, item < 16 → m.ctrl.getD (slot + item) 0 =
        m.ctrl.getD ((hash % m.capacity + (16 * w + item)) % m.capacity) 0 := by
      intro item hitem
      rw [window_byte hm h16 hslotlt hitem, ← modulo_eq_mod hm.cap_pow, hpos item]
    have hmasklt : windowMask m.ctrl slot (ctrlHash hash) ||| windowMask m.ctrl slot emptyByte
        < 2 ^ 16 := Nat.or_lt_two_pow windowMask_lt windowMask_lt
    by_cases hcase : D < 16 * w + 16
    · -- the decision falls inside this window
      have histar : D - 16 * w < 16 := by omega
      have hsum : 16 * w + (D - 16 * w) = D := by omega
      have hdec2 : (m.ctrl.getD (modulo m.capacity (slot + (D - 16 * w))) 0 = ctrlHash hash ∧
          ∃ v, m.data.getD (modulo m.capacity (slot + (D - 16 * w))) .Empty =
            .Occupied ⟨hash, v⟩ ∧ r = .found v) ∨
          (m.ctrl.getD (modulo m.capacity (slot + (D - 16 * w))) 0 = emptyByte ∧
            r = .absent) := by
        rw [hpos (D - 16 * w), hsum]
        exact hdec
      have hmem : D - 16 * w ∈
          iterate (windowMask m.ctrl slot (ctrlHash hash) ||| windowMask m.ctrl slot emptyByte) := by
        rw [candidate_mem]
        refine ⟨histar, ?_⟩
        rw [hbyte (D - 16 * w) histar, hsum]
        rcases hdec with ⟨h1, _⟩ | ⟨h1, _⟩
        · exact Or.inl h1
        · exact Or.inr h1
      have hscan := scanCands_decide (ctrlHash_lt hash) hdec2
        (iterate (windowMask m.ctrl slot (ctrlHash hash) ||| windowMask m.ctrl slot emptyByte))
        (iterate_sorted _) hmem ?_
      · rw [getLoop, hscan]
      · intro x hx hlx
        have ht : 16 * w + x < D := by omega
        have := hcont (16 * w + x) ht
        rw [← hpos x] at this
        exact this
    · -- every candidate of this window continues; advance the window
      have hscan := @scanCands_none V m (ctrlHash hash) hash slot
        (iterate (windowMask m.ctrl slot (ctrlHash hash) ||| windowMask m.ctrl slot emptyByte))
        ?_
      · rw [getLoop, hscan]
        apply ih (w + 1)
        · rw [modulo_eq_mod hm.cap_pow, hslot, Nat.mod_add_mod]
          congr 1
        · omega
        · omega
      · intro x hx
        have hx16 : x < 16 := mem_iterate_lt hmasklt hx
        have ht : 16 * w + x < D := by omega
        have := hcont (16 * w + x) ht
        rw [← hpos x] at this
        exact this

theorem getLoop_decides {m : StampedeMap V} (hm : Inv m) (h16 : 16 ≤ m.capacity)
    {hash D : Nat} {r : GetResult V} (hD : D < m.capacity)
    (hdec : (m.ctrl.getD ((hash % m.capacity + D) % m.capacity) 0 = ctrlHash hash ∧
              ∃ v, m.data.getD ((hash % m.capacity + D) % m.capacity) .Empty =
                .Occupied ⟨hash, v⟩ ∧ r = .found v) ∨
            (m.ctrl.getD ((hash % m.capacity + D) % m.capacity) 0 = emptyByte ∧ r = .absent))
    (hcont : ∀ t, t < D →
      m.ctrl.getD ((hash % m.capacity + t) % m.capacity) 0 ≠ emptyByte ∧
      (m.ctrl.getD ((hash % m.capacity + t) % m.capacity) 0 = ctrlHash hash →
        ∃ n, m.data.getD ((hash % m.capacity + t) % m.capacity) .Empty = .Occupied n ∧
          n.hash ≠ hash)) :
    getMap m hash = r := by
  have hc : 0 < m.capacity := isPow2_pos hm.cap_pow
  rw [getMap, modulo_eq_mod hm.cap_pow]
  apply getLoop_windows hm h16 hD hdec hcont (m.capacity + 1) 0
  · rw [Nat.mul_zero, Nat.add_zero, Nat.mod_eq_of_lt (Nat.mod_lt _ hc)]
  · omega
  · omega

theorem countRange_le_add {n : Nat} {f g h : Nat → Bool}
    (hfg : ∀ i, i < n → f i = true → g i = true ∨ h i = true) :
    countRange n f ≤ countRange n g + countRange n h := by
  induction n with
  | zero => exact Nat.le_refl 0
  | succ n ih =>
    rw [countRange_succ, countRange_succ, countRange_succ]
    have hrec := ih fun i hi => hfg i (by omega)
    by_cases hf : f n = true
    · rcases hfg n (by omega) hf with hg | hh
      · rw [hf, hg]
        simp only [if_true]
        omega
      · rw [hf, hh]
        simp only [if_true]
        by_cases hgn : g n = true <;> simp [hgn] <;> omega
    · have hf2 : f n = false := by
        cases hfn : f n
        · rfl
        · exact absurd hfn hf
      rw [hf2]
      simp only [Bool.false_eq_true, if_false]
      by_cases hgn : g n = true <;> by_cases hhn : h n = true <;> simp [hgn, hhn] <;> omega

theorem empty_ctrl_exists {m : StampedeMap V} (hm : Inv m) (hcap : 4 < m.capacity) :
    ∃ i, i < m.capacity ∧ m.ctrl.getD i 0 = emptyByte := by
  by_contra hno
  push_neg at hno
  have h0 : countRange m.capacity (fun i => m.ctrl.getD i 0 == emptyByte) = 0 := by
    apply countRange_false
    intro i hi
    exact beq_eq_false_iff_ne.2 (hno i hi)
  have hcompl := @countRange_add_compl m.capacity fun i => m.ctrl.getD i 0 == emptyByte
  have hle : countRange m.capacity (fun i => !(m.ctrl.getD i 0 == emptyByte)) ≤
      countRange m.capacity (fun i => (m.data.getD i .Empty).isOcc) +
      countRange m.capacity (fun i => m.ctrl.getD i 0 == deletedByte) := by
    apply countRange_le_add
    intro i hi _
    have hcoh := hm.table.coh i hi
    rcases hcoh.byte_cases with he | hd | hlt
    · exact absurd he (hno i hi)
    · right
      show (m.ctrl.getD i 0 == deletedByte) = true
      exact beq_iff_eq.2 hd
    · left
      obtain ⟨n, hs, _⟩ := hcoh.tag_occupied hlt
      rw [hs]
      rfl
  have hot := hm.occ_tomb_le
  have hload := hm.load
  dsimp only [occCount, tombCount, countOcc, countTombL] at hot
  omega

theorem empty_data_exists {cap : Nat} {data : List (Slot V)} (h : countOcc cap data < cap) :
    ∃ i, i < cap ∧ data.getD i .Empty = .Empty := by
  have hcompl := @countRange_add_compl cap fun i => (data.getD i .Empty).isOcc
  have hpos : 0 < countRange cap fun i => !(data.getD i .Empty).isOcc := by
    have heq : countOcc cap data = countRange cap fun i => (data.getD i .Empty).isOcc := rfl
    omega
  obtain ⟨i, hi, hneg⟩ := countRange_pos.1 hpos
  refine ⟨i, hi, ?_⟩
  rcases hcase : data.getD i .Empty with _ | nn
  · rfl
  · rw [hcase] at hneg
    simp [Slot.isOcc] at hneg

theorem getMap_absent {m : StampedeMap V} (hm : Inv m) (h16 : 16 ≤ m.capacity) {hash : Nat}
    (habs : absentIn m hash) : getMap m hash = .absent := by
  have hc : 0 < m.capacity := isPow2_pos hm.cap_pow
  obtain ⟨e, he, hbe⟩ := empty_ctrl_exists hm (by omega)
  have home_lt : hash % m.capacity < m.capacity := Nat.mod_lt _ hc
  have hexf : ∃ t,
      (m.ctrl.getD ((hash % m.capacity + t) % m.capacity) 0 == emptyByte) = true := by
    refine ⟨distTo m.capacity (hash % m.capacity) e, ?_⟩
    rw [add_distTo home_lt he, hbe]
    simp
  have hDspec := Nat.find_spec hexf
  have hDle : Nat.find hexf ≤ distTo m.capacity (hash % m.capacity) e := by
    apply Nat.find_min' hexf
    rw [add_distTo home_lt he, hbe]
    simp
  have hDlt : Nat.find hexf < m.capacity := lt_of_le_of_lt hDle (distTo_lt hc)
  apply getLoop_decides hm h16 hDlt
  · right
    refine ⟨?_, rfl⟩
    simpa using hDspec
  · intro t ht
    have hmin := Nat.find_min hexf ht
    constructor
    · intro hcontra
      apply hmin
      rw [hcontra]
      simp
    · intro htag
      have hplt : (hash % m.capacity + t) % m.capacity < m.capacity := Nat.mod_lt _ hc
      have hcoh := hm.table.coh _ hplt
      rw [htag] at hcoh
      obtain ⟨n, hs, _⟩ := hcoh.tag_occupied (ctrlHash_lt hash)
      refine ⟨n, hs, ?_⟩
      intro hhash
      have hmiss := habs _ hplt
      rw [hs] at hmiss
      simp [Slot.hashIs, hhash] at hmiss

theorem deleteMap_absent {m : StampedeMap V} (hm : Inv m) (h16 : 16 ≤ m.capacity) {hash : Nat}
    (habs : absentIn m hash) : deleteMap m hash = some m := by
  have hc : 0 < m.capacity := isPow2_pos hm.cap_pow
  have hocclt : occCount m < m.capacity := by
    have h1 := hm.occ_le_len
    have h2 := hm.load
    omega
  obtain ⟨i0, hi0, hie⟩ := empty_data_exists hocclt
  have hex : ∃ i, i < m.capacity ∧ probeStop m.data hash i = true := by
    refine ⟨i0, hi0, ?_⟩
    simp only [probeStop, hie]
  obtain ⟨d, hd, hstop, hbefore, hprobe⟩ :=
    probeIdx_success hm.cap_pow (modulo_lt hash hc) hex
  simp only [deleteMap, hprobe]
  rcases hslot : m.data.getD ((modulo m.capacity hash + d) % m.capacity) .Empty with _ | n
  · simp only [hslot]
  · exfalso
    have hplt : (modulo m.capacity hash + d) % m.capacity < m.capacity := Nat.mod_lt _ hc
    have habs2 := habs _ hplt
    rw [hslot] at habs2
    simp only [probeStop, hslot] at hstop
    simp only [Slot.hashIs] at habs2
    rw [hstop] at habs2
    cases habs2

/-- C8 (amended): for every state reachable from `new()` (capacity at least 16), a hash
absent from the map makes `get` return `None` and `delete` a no-op that returns the
state completely unchanged; no error is signalled (there is no error channel).  For
capacities below 16 a full table instead makes both loop forever (see the
counterexample). -/
theorem C8_absent_key_amended (V : Type) (prog : List (Op V)) (m' : StampedeMap V) (h : Nat)
    (hr : run (mapNew : StampedeMap V) prog = some m') (habs : absentIn m' h) :
    getMap m' h = .absent ∧ deleteMap m' h = some m' := by
  obtain ⟨hinv, hcap⟩ := run_inv inv_mapNew hr
  have h16 : 16 ≤ m'.capacity := le_trans le_rfl hcap
  exact ⟨getMap_absent hinv h16 habs, deleteMap_absent hinv h16 habs⟩

/-- C8 (witness). -/
theorem C8_witness :
    getMap (mapNew : StampedeMap Nat) 42 = .absent ∧
      deleteMap (mapNew : StampedeMap Nat) 42 = some mapNew :=
  C8_absent_key_amended Nat [] mapNew 42 rfl (by decide)

theorem getMap_found {m : StampedeMap V} (hm : Inv m) (h16 : 16 ≤ m.capacity)
    (huniq : HashUnique m) (hchain : Chains m) {hash : Nat} {v : V} {i : Nat}
    (hi : i < m.capacity) (hslot : m.data.getD i .Empty = .Occupied ⟨hash, v⟩) :
    getMap m hash = .found v := by
  have hc : 0 < m.capacity := isPow2_pos hm.cap_pow
  have home_lt : hash % m.capacity < m.capacity := Nat.mod_lt _ hc
  have hDlt : distTo m.capacity (hash % m.capacity) i < m.capacity := distTo_lt hc
  have hpd : (hash % m.capacity + distTo m.capacity (hash % m.capacity) i) % m.capacity = i :=
    add_distTo home_lt hi
  apply getLoop_decides hm h16 hDlt
  · left
    rw [hpd]
    refine ⟨?_, v, hslot, rfl⟩
    have hcoh := hm.table.coh i hi
    rw [hslot] at hcoh
    exact hcoh.occupied_tag
  · intro t ht
    have hplt : (hash % m.capacity + t) % m.capacity < m.capacity := Nat.mod_lt _ hc
    have hoccp := hchain i ⟨hash, v⟩ hi hslot t ht
    obtain ⟨n, hn⟩ := Slot.isOcc_true_iff.1 hoccp
    constructor
    · have hcoh := hm.table.coh _ hplt
      rw [hn] at hcoh
      rw [hcoh.occupied_tag]
      exact ctrlHash_ne_empty n.hash
    · intro _
      refine ⟨n, hn, ?_⟩
      intro hhash
      have heqi := huniq _ i hplt hi n ⟨hash, v⟩ hn hslot (by rw [hhash])
      have ht2 : t = distTo m.capacity (hash % m.capacity) i := by
        rw [← heqi, distTo_add home_lt (lt_trans ht hDlt)]
      omega

theorem mem_nodesOf {l : List (Slot V)} {n : Node V} :
    n ∈ nodesOf l ↔ ∃ i, i < l.length ∧ l.getD i .Empty = .Occupied n := by
  induction l with
  | nil => simp [nodesOf]
  | cons s rest ih =>
    cases s with
    | Empty =>
      have hstep : nodesOf (Slot.Empty :: rest) = nodesOf rest := rfl
      rw [hstep, ih]
      constructor
      · rintro ⟨i, hi, hoc⟩
        exact ⟨i + 1, by simp; omega, hoc⟩
      · rintro ⟨i, hi, hoc⟩
        cases i with
        | zero => cases hoc
        | succ i => exact ⟨i, by simp at hi; omega, hoc⟩
    | Occupied nd =>
      have hstep : nodesOf (Slot.Occupied nd :: rest) = nd :: nodesOf rest := rfl
      rw [hstep]
      constructor
      · intro hmem
        rcases List.mem_cons.1 hmem with rfl | hmem2
        · exact ⟨0, by simp, rfl⟩
        · obtain ⟨i, hi, hoc⟩ := ih.1 hmem2
          exact ⟨i + 1, by simp; omega, hoc⟩
      · rintro ⟨i, hi, hoc⟩
        cases i with
        | zero =>
          cases hoc
          exact List.mem_cons_self _ _
        | succ i =>
          apply List.mem_cons_of_mem
          exact ih.2 ⟨i, by simp at hi; omega, hoc⟩

theorem uniqueT_shift {s : Slot V} {rest : List (Slot V)}
    (h : UniqueT (s :: rest).length (s :: rest)) : UniqueT rest.length rest := by
  intro i j hi hj n n' hni hnj hh
  have := h (i + 1) (j + 1) (by simp; omega) (by simp; omega) n n' hni hnj hh
  omega

theorem uniqueT_pairwise : ∀ {data : List (Slot V)}, UniqueT data.length data →
    List.Pairwise (fun a b => a.hash ≠ b.hash) (nodesOf data) := by
  intro data
  induction data with
  | nil =>
    intro _
    exact List.Pairwise.nil
  | cons s rest ih =>
    intro h
    cases s with
    | Empty => exact ih (uniqueT_shift h)
    | Occupied nd =>
      have hstep : nodesOf (Slot.Occupied nd :: rest) = nd :: nodesOf rest := rfl
      rw [hstep]
      refine List.Pairwise.cons ?_ (ih (uniqueT_shift h))
      intro b hb
      obtain ⟨j, hj, hoc⟩ := mem_nodesOf.1 hb
      intro hcontra
      have := h 0 (j + 1) (by simp) (by simp; omega) nd b rfl hoc hcontra
      omega

theorem specGet_cons {a h : Nat} {b : V} {model : List (Nat × V)} :
    specGet ((a, b) :: model) h = if a = h then some b else specGet model h := by
  by_cases hab : a = h
  · rw [if_pos hab]
    unfold specGet
    rw [List.find?_cons_of_pos _ (by simp [hab])]
    simp
  · rw [if_neg hab]
    unfold specGet
    rw [List.find?_cons_of_neg _ (by simp [hab])]

theorem noTombT_write {cap : Nat} {ctrl : List Nat} {idx h : Nat}
    (hlen : ctrl.length = cap + 16) (hidx : idx < cap) (hnt : NoTombT cap ctrl) :
    NoTombT cap ((if idx < 16 then ctrl.set (cap + idx) (ctrlHash h) else ctrl).set idx
      (ctrlHash h)) := by
  have hl1 : (if idx < 16 then ctrl.set (cap + idx) (ctrlHash h) else ctrl).length = cap + 16 := by
    split <;> simp [hlen]
  intro i hi
  by_cases hieq : i = idx
  · subst hieq
    rw [getD_set_self (by rw [hl1]; omega)]
    exact ctrlHash_ne_deleted _
  · rw [getD_set_ne (show idx ≠ i by omega)]
    have hinner : (if idx < 16 then ctrl.set (cap + idx) (ctrlHash h) else ctrl).getD i 0 =
        ctrl.getD i 0 := by
      split
      · exact getD_set_ne (by omega)
      · rfl
    rw [hinner]
    exact hnt i hi

theorem insert_fresh_extras {cap : Nat} {ctrl : List Nat} {data : List (Slot V)} {nd : Node V}
    {idx d : Nat} (hclen : ctrl.length = cap + 16) (hdlen : data.length = cap)
    (hnt : NoTombT cap ctrl) (hu : UniqueT cap data) (hch : ChainsT cap data)
    (hfresh : ∀ n', bindsT cap data n' → n'.hash ≠ nd.hash)
    (hc : 0 < cap) (hd : d < cap) (hidx : idx = (nd.hash % cap + d) % cap)
    (hempty : data.getD idx .Empty = .Empty)
    (hpath : ∀ t, t < d → (data.getD ((nd.hash % cap + t) % cap) .Empty).isOcc = true) :
    NoTombT cap ((if idx < 16 then ctrl.set (cap + idx) (ctrlHash nd.hash) else ctrl).set idx
        (ctrlHash nd.hash)) ∧
    UniqueT cap (data.set idx (.Occupied nd)) ∧
    ChainsT cap (data.set idx (.Occupied nd)) ∧
    ∀ n', bindsT cap (data.set idx (.Occupied nd)) n' ↔ (n' = nd ∨ bindsT cap data n') := by
  have hidxlt : idx < cap := by rw [hidx]; exact Nat.mod_lt _ hc
  have hgetnew : (data.set idx (.Occupied nd)).getD idx .Empty = .Occupied nd :=
    getD_set_self (by rw [hdlen]; omega)
  have hgetold : ∀ j, j ≠ idx →
      (data.set idx (.Occupied nd)).getD j .Empty = data.getD j .Empty :=
    fun j hj => getD_set_ne (fun hc2 => hj hc2.symm)
  have hbinds : ∀ n', bindsT cap (data.set idx (.Occupied nd)) n' ↔
      (n' = nd ∨ bindsT cap data n') := by
    intro n'
    constructor
    · rintro ⟨i, hi, hoc⟩
      by_cases hieq : i = idx
      · subst hieq
        rw [hgetnew] at hoc
        injection hoc with h2
        exact Or.inl h2.symm
      · exact Or.inr ⟨i, hi, (hgetold i hieq) ▸ hoc⟩
    · rintro (rfl | ⟨i, hi, hoc⟩)
      · exact ⟨idx, hidxlt, hgetnew⟩
      · refine ⟨i, hi, ?_⟩
        have hine : i ≠ idx := by
          intro hc2
          subst hc2
          rw [hempty] at hoc
          cases hoc
        rw [hgetold i hine]
        exact hoc
  have huniq : UniqueT cap (data.set idx (.Occupied nd)) := by
    intro i j hi hj n n' hni hnj hh
    by_cases hie : i = idx <;> by_cases hje : j = idx
    · subst hie; subst hje; rfl
    · subst hie
      rw [hgetnew] at hni
      injection hni with h2
      rw [hgetold j hje] at hnj
      exact absurd (by rw [← hh, h2]) (hfresh n' ⟨j, hj, hnj⟩)
    · subst hje
      rw [hgetnew] at hnj
      injection hnj with h2
      rw [hgetold i hie] at hni
      exact absurd (by rw [hh, h2]) (hfresh n ⟨i, hi, hni⟩)
    · rw [hgetold i hie] at hni
      rw [hgetold j hje] at hnj
      exact hu i j hi hj n n' hni hnj hh
  have hocc_mono : ∀ p, (data.getD p .Empty).isOcc = true →
      ((data.set idx (.Occupied nd)).getD p .Empty).isOcc = true := by
    intro p hp
    by_cases hpe : p = idx
    · subst hpe
      rw [hgetnew]
      rfl
    · rw [hgetold p hpe]
      exact hp
  have hchains : ChainsT cap (data.set idx (.Occupied nd)) := by
    intro i n hi hoc t ht
    by_cases hie : i = idx
    · subst hie
      rw [hgetnew] at hoc
      injection hoc with h2
      subst h2
      have hdist : distTo cap (nd.hash % cap) i = d := by
        rw [hidx]
        exact distTo_add (Nat.mod_lt _ hc) hd
      rw [hdist] at ht
      have hpne : (nd.hash % cap + t) % cap ≠ i := by
        intro hcontra
        rw [hidx] at hcontra
        have e1 := distTo_add (Nat.mod_lt nd.hash hc) (lt_trans ht hd)
        have e2 := distTo_add (Nat.mod_lt nd.hash hc) hd
        rw [hcontra, e2] at e1
        omega
      rw [hgetold _ hpne]
      exact hpath t ht
    · rw [hgetold i hie] at hoc
      exact hocc_mono _ (hch i n hi hoc t ht)
  exact ⟨noTombT_write hclen hidxlt hnt, huniq, hchains, hbinds⟩

theorem probe_finds_existing {m : StampedeMap V} (hm : Inv m) (huniq : HashUnique m)
    (hchain : Chains m) {hash j : Nat} {n : Node V} (hj : j < m.capacity)
    (hocc : m.data.getD j .Empty = .Occupied n) (hhash : n.hash = hash) :
    probeIdx (probeStop m.data hash) m.capacity (modulo m.capacity hash) m.capacity =
      some j := by
  have hc : 0 < m.capacity := isPow2_pos hm.cap_pow
  have hmod : modulo m.capacity hash = hash % m.capacity := modulo_eq_mod hm.cap_pow _
  have home_lt : hash % m.capacity < m.capacity := Nat.mod_lt _ hc
  have hpd : (hash % m.capacity + distTo m.capacity (hash % m.capacity) j) % m.capacity = j :=
    add_distTo home_lt hj
  have hDlt : distTo m.capacity (hash % m.capacity) j < m.capacity := distTo_lt hc
  have hstop1 : probeStop m.data hash ((hash % m.capacity +
      distTo m.capacity (hash % m.capacity) j) % m.capacity) = true := by
    rw [hpd]
    unfold probeStop
    rw [hocc]
    simp [hhash]
  have hbef : ∀ t, t < distTo m.capacity (hash % m.capacity) j →
      probeStop m.data hash ((hash % m.capacity + t) % m.capacity) = false := by
    intro t ht
    have hplt : (hash % m.capacity + t) % m.capacity < m.capacity := Nat.mod_lt _ hc
    have hD2 : distTo m.capacity (n.hash % m.capacity) j =
        distTo m.capacity (hash % m.capacity) j := by rw [hhash]
    have hoccp := hchain j n hj hocc t (by rw [hD2]; exact ht)
    rw [hhash] at hoccp
    obtain ⟨n2, hn2⟩ := Slot.isOcc_true_iff.1 hoccp
    unfold probeStop
    rw [hn2]
    refine beq_eq_false_iff_ne.2 ?_
    intro hcontra
    have heqi := huniq _ j hplt hj n2 n hn2 hocc (by rw [hcontra, hhash])
    have e1 := distTo_add home_lt (lt_trans ht hDlt)
    rw [heqi] at e1
    omega
  rw [hmod, probeIdx_reaches hm.cap_pow home_lt hstop1 hbef hDlt, hpd]

theorem overwrite_extras {cap : Nat} {data : List (Slot V)} {j : Nat} {n : Node V} {v : V}
    (hdlen : data.length = cap) (hj : j < cap) (hocc : data.getD j .Empty = .Occupied n)
    (hu : UniqueT cap data) (hch : ChainsT cap data) :
    UniqueT cap (data.set j (.Occupied ⟨n.hash, v⟩)) ∧
    ChainsT cap (data.set j (.Occupied ⟨n.hash, v⟩)) ∧
    ∀ n', bindsT cap (data.set j (.Occupied ⟨n.hash, v⟩)) n' ↔
      (n' = ⟨n.hash, v⟩ ∨ (bindsT cap data n' ∧ n'.hash ≠ n.hash)) := by
  have hgetnew : (data.set j (.Occupied ⟨n.hash, v⟩)).getD j .Empty = .Occupied ⟨n.hash, v⟩ :=
    getD_set_self (by rw [hdlen]; omega)
  have hgetold : ∀ i, i ≠ j →
      (data.set j (.Occupied ⟨n.hash, v⟩)).getD i .Empty = data.getD i .Empty :=
    fun i hi => getD_set_ne (fun hc2 => hi hc2.symm)
  have hocc_pres : ∀ p, (data.getD p .Empty).isOcc = true →
      ((data.set j (.Occupied ⟨n.hash, v⟩)).getD p .Empty).isOcc = true := by
    intro p hp
    by_cases hpe : p = j
    · rw [hpe, hgetnew]
      rfl
    · rw [hgetold p hpe]
      exact hp
  refine ⟨?_, ?_, ?_⟩
  · intro i i2 hi hi2 n1 n2 hn1 hn2 hh
    by_cases hie : i = j <;> by_cases hje : i2 = j
    · rw [hie, hje]
    · rw [hie, hgetnew] at hn1
      injection hn1 with h2
      rw [hgetold i2 hje] at hn2
      rw [hie]
      exact hu j i2 hj hi2 n n2 hocc hn2 (by rw [← hh, ← h2])
    · rw [hje, hgetnew] at hn2
      injection hn2 with h2
      rw [hgetold i hie] at hn1
      rw [hje]
      exact hu i j hi hj n1 n hn1 hocc (by rw [hh, ← h2])
    · rw [hgetold i hie] at hn1
      rw [hgetold i2 hje] at hn2
      exact hu i i2 hi hi2 n1 n2 hn1 hn2 hh
  · intro i n1 hi hn1 t ht
    by_cases hie : i = j
    · rw [hie, hgetnew] at hn1
      injection hn1 with h2
      have hh1 : n1.hash = n.hash := by rw [← h2]
      refine hocc_pres _ ?_
      rw [hh1]
      exact hch j n hj hocc t (by rw [hh1, hie] at ht; exact ht)
    · rw [hgetold i hie] at hn1
      exact hocc_pres _ (hch i n1 hi hn1 t ht)
  · intro n'
    constructor
    · rintro ⟨i, hi, hoc2⟩
      by_cases hie : i = j
      · rw [hie, hgetnew] at hoc2
        injection hoc2 with h2
        exact Or.inl h2.symm
      · rw [hgetold i hie] at hoc2
        refine Or.inr ⟨⟨i, hi, hoc2⟩, ?_⟩
        intro hcontra
        exact hie (hu i j hi hj n' n hoc2 hocc hcontra)
    · rintro (rfl | ⟨⟨i, hi, hoc2⟩, hne⟩)
      · exact ⟨j, hj, hgetnew⟩
      · have hine : i ≠ j := by
          intro hc2
          rw [hc2, hocc] at hoc2
          injection hoc2 with h3
          exact hne (by rw [h3])
        exact ⟨i, hi, by rw [hgetold i hine]; exact hoc2⟩

theorem resizeFold_extras {cap : Nat} (hp : IsPow2 cap) :
    ∀ (old : List (Slot V)) (ctrl : List Nat) (data : List (Slot V)) (done : List (Node V)),
      TableInv cap ctrl data →
      countOcc cap data + old.countP Slot.isOcc < cap →
      NoTombT cap ctrl → UniqueT cap data → ChainsT cap data →
      (∀ n', bindsT cap data n' ↔ n' ∈ done) →
      List.Pairwise (fun a b => a.hash ≠ b.hash) (done ++ nodesOf old) →
      ∃ ctrl' data', resizeFold cap (ctrl, data) old = some (ctrl', data') ∧
        NoTombT cap ctrl' ∧ UniqueT cap data' ∧ ChainsT cap data' ∧
        (∀ n', bindsT cap data' n' ↔ n' ∈ done ++ nodesOf old) := by
  intro old
  induction old with
  | nil =>
    intro ctrl data done ht hcnt hnt hu hch hbind hpw
    refine ⟨ctrl, data, rfl, hnt, hu, hch, ?_⟩
    intro n'
    rw [hbind n']
    simp [nodesOf]
  | cons s rest ih =>
    intro ctrl data done ht hcnt hnt hu hch hbind hpw
    cases s with
    | Empty =>
      have hcnt2 : countOcc cap data + rest.countP Slot.isOcc < cap := by
        rw [List.countP_cons] at hcnt
        simp [Slot.isOcc] at hcnt
        omega
      have hpw2 : List.Pairwise (fun a b => a.hash ≠ b.hash) (done ++ nodesOf rest) := hpw
      obtain ⟨ctrl', data', hfold, hnt', hu', hch', hbind'⟩ :=
        ih ctrl data done ht hcnt2 hnt hu hch hbind hpw2
      refine ⟨ctrl', data', ?_, hnt', hu', hch', ?_⟩
      · simpa [resizeFold] using hfold
      · intro n'
        rw [hbind' n']
        have hstep : nodesOf (Slot.Empty :: rest) = nodesOf rest := rfl
        rw [hstep]
    | Occupied nd =>
      have hcntc : (Slot.Occupied nd :: rest).countP Slot.isOcc =
          rest.countP Slot.isOcc + 1 := by
        rw [List.countP_cons]
        simp [Slot.isOcc]
      have hroom : countOcc cap data < cap := by omega
      obtain ⟨idx, d, ctrl1, data1, hins, hidx, hd, hideq, hempty, hpath, hceq, hdeq, ht1,
        hocc1, htomb1⟩ := resizeInsert_ok hp ht hroom
      have hnodes : nodesOf (Slot.Occupied nd :: rest) = nd :: nodesOf rest := rfl
      rw [hnodes] at hpw
      have hfresh : ∀ n', bindsT cap data n' → n'.hash ≠ nd.hash := by
        intro n' hb
        have hmem : n' ∈ done := (hbind n').1 hb
        exact (List.pairwise_append.1 hpw).2.2 n' hmem nd (List.mem_cons_self _ _)
      have hextras := insert_fresh_extras ht.ctrl_len ht.data_len hnt hu hch hfresh
        (isPow2_pos hp) hd hideq hempty hpath
      rw [← hceq, ← hdeq] at hextras
      obtain ⟨hnt1, hu1, hch1, hbind1⟩ := hextras
      have hbindd : ∀ n', bindsT cap data1 n' ↔ n' ∈ done ++ [nd] := by
        intro n'
        rw [hbind1 n', hbind n']
        simp [List.mem_append, or_comm]
      have hcnt2 : countOcc cap data1 + rest.countP Slot.isOcc < cap := by
        rw [hocc1]
        omega
      have hpw2 : List.Pairwise (fun a b => a.hash ≠ b.hash)
          ((done ++ [nd]) ++ nodesOf rest) := by
        rw [List.append_assoc]
        exact hpw
      obtain ⟨ctrl', data', hfold, hnt', hu', hch', hbind'⟩ :=
        ih ctrl1 data1 (done ++ [nd]) ht1 hcnt2 hnt1 hu1 hch1 hbindd hpw2
      refine ⟨ctrl', data', ?_, hnt', hu', hch', ?_⟩
      · show resizeFold cap (ctrl, data) (.Occupied nd :: rest) = some (ctrl', data')
        rw [resizeFold, hins]
        exact hfold
      · intro n'
        rw [hbind' n', hnodes]
        simp [List.mem_append, or_assoc]

theorem resizeMap_RFull {m : StampedeMap V} {model : List (Nat × V)} (hR : RFull m model) :
    ∃ m', resizeMap m = some m' ∧ RFull m' model ∧ m'.len = m.len ∧ m'.deleted = 0 ∧
      m'.capacity = 2 * m.capacity := by
  obtain ⟨hInv, h16, hNT, hU, hCh, hC⟩ := hR
  have hcapx : nextPowerOfTwo (m.capacity + 1) = 2 * m.capacity := by
    obtain ⟨k, hk⟩ := hInv.cap_pow
    rw [hk, nextPowerOfTwo_double]
    ring
  have hp2 : IsPow2 (2 * m.capacity) := by
    obtain ⟨k, hk⟩ := hInv.cap_pow
    exact ⟨k + 1, by rw [hk]; ring⟩
  have htinit : TableInv (2 * m.capacity)
      (List.replicate (2 * m.capacity + 16) emptyByte)
      (List.replicate (2 * m.capacity) (.Empty : Slot V)) := tableInv_replicate
  have hold : m.data.countP Slot.isOcc = occCount m := by
    have h := @countRange_getD _ m.data Slot.isOcc .Empty
    rw [hInv.table.data_len] at h
    exact h.symm
  have hroom : countOcc (2 * m.capacity) (List.replicate (2 * m.capacity) (.Empty : Slot V)) +
      m.data.countP Slot.isOcc < 2 * m.capacity := by
    rw [countOcc_replicate, hold]
    have h1 := hInv.occ_le_len
    have h2 := hInv.load
    omega
  have hntinit : NoTombT (2 * m.capacity) (List.replicate (2 * m.capacity + 16) emptyByte) := by
    intro i hi
    rw [getD_replicate, if_pos (show i < 2 * m.capacity + 16 by omega)]
    unfold emptyByte deletedByte
    omega
  have huinit : UniqueT (2 * m.capacity) (List.replicate (2 * m.capacity) (.Empty : Slot V)) := by
    intro i j hi hj n n' hn hn' hh
    rw [getD_replicate, if_pos hi] at hn
    cases hn
  have hchinit : ChainsT (2 * m.capacity) (List.replicate (2 * m.capacity) (.Empty : Slot V)) := by
    intro i n hi hn
    rw [getD_replicate, if_pos hi] at hn
    cases hn
  have hbindinit : ∀ n' : Node V, bindsT (2 * m.capacity)
      (List.replicate (2 * m.capacity) (.Empty : Slot V)) n' ↔ n' ∈ ([] : List (Node V)) := by
    intro n'
    constructor
    · rintro ⟨i, hi, hoc⟩
      rw [getD_replicate, if_pos hi] at hoc
      cases hoc
    · intro hmem
      cases hmem
  have hpwinit : List.Pairwise (fun a b : Node V => a.hash ≠ b.hash)
      (([] : List (Node V)) ++ nodesOf m.data) := by
    rw [List.nil_append]
    apply uniqueT_pairwise
    rw [hInv.table.data_len]
    exact hU
  obtain ⟨ctrl2, data2, hfold, hnt2, hu2, hch2, hbind2⟩ :=
    resizeFold_extras hp2 m.data _ _ [] htinit hroom hntinit huinit hchinit hbindinit hpwinit
  have hres2 : resizeMap m = some ⟨data2, m.len, 2 * m.capacity, ctrl2, 0⟩ := by
    simp only [resizeMap, hcapx, hfold]
  obtain ⟨m', hres, hInv', hcap', hlen', hdel'⟩ := resizeMap_ok hInv
  rw [hres] at hres2
  injection hres2 with heq
  subst heq
  have hcont2 : Contents (⟨data2, m.len, 2 * m.capacity, ctrl2, 0⟩ : StampedeMap V) model := by
    intro h v
    have h1 := hbind2 ⟨h, v⟩
    rw [List.nil_append, mem_nodesOf, hInv.table.data_len] at h1
    show bindsT (2 * m.capacity) data2 ⟨h, v⟩ ↔ specGet model h = some v
    rw [h1]
    exact hC h v
  exact ⟨⟨data2, m.len, 2 * m.capacity, ctrl2, 0⟩, hres,
    ⟨hInv', by show 16 ≤ 2 * m.capacity; omega, hnt2, hu2, hch2, hcont2⟩, rfl, rfl, rfl⟩

theorem setRaw_RFull {m : StampedeMap V} {model : List (Nat × V)} {h : Nat} {v : V}
    (hR : RFull m model)
    (hroom : (m.len + 1 + m.deleted) * 4 ≤ m.capacity * 3 + 4)
    (hocclt : occCount m < m.capacity) :
    ∃ m', setRaw m h v = some m' ∧ RFull m' ((h, v) :: model) := by
  obtain ⟨hInv, h16, hNT, hU, hCh, hC⟩ := hR
  have hc : 0 < m.capacity := isPow2_pos hInv.cap_pow
  by_cases hpres : ∃ j n, j < m.capacity ∧ m.data.getD j .Empty = .Occupied n ∧ n.hash = h
  · obtain ⟨j, n, hj, hjn, hnh⟩ := hpres
    have hprobe := probe_finds_existing hInv hU hCh hj hjn hnh
    have hs : setRaw m h v = some { m with
        ctrl := (if j < 16 then m.ctrl.set (m.capacity + j) (ctrlHash h)
          else m.ctrl).set j (ctrlHash h),
        len := m.len + 1,
        data := m.data.set j (.Occupied ⟨h, v⟩) } := by
      simp only [setRaw, hprobe]
    obtain ⟨hInv', hcap', hlen', hdel'⟩ := setRaw_inv hInv hroom hs
    obtain ⟨hov_u, hov_ch, hov_b⟩ :=
      @overwrite_extras V m.capacity m.data j n v hInv.table.data_len hj hjn hU hCh
    rw [hnh] at hov_u hov_ch hov_b
    refine ⟨_, hs, hInv', h16, noTombT_write hInv.table.ctrl_len hj hNT, hov_u, hov_ch, ?_⟩
    intro h2 v2
    show bindsT m.capacity (m.data.set j (.Occupied ⟨h, v⟩)) ⟨h2, v2⟩ ↔
      specGet ((h, v) :: model) h2 = some v2
    rw [hov_b ⟨h2, v2⟩, specGet_cons]
    by_cases hhe : h2 = h
    · rw [if_pos hhe.symm]
      constructor
      · rintro (heq | ⟨hb, hne⟩)
        · injection heq with e1 e2
          rw [e2]
        · exact absurd hhe hne
      · intro hsome
        injection hsome with e1
        left
        rw [hhe, ← e1]
    · rw [if_neg (fun he => hhe he.symm)]
      constructor
      · rintro (heq | ⟨hb, hne⟩)
        · injection heq with e1 e2
          exact absurd e1 hhe
        · exact (hC h2 v2).1 hb
      · intro hsome
        refine Or.inr ⟨(hC h2 v2).2 hsome, ?_⟩
        exact hhe
  · push_neg at hpres
    obtain ⟨e, he, hedata⟩ := empty_data_exists hocclt
    have hmod : modulo m.capacity h = h % m.capacity := modulo_eq_mod hInv.cap_pow _
    have home_lt : h % m.capacity < m.capacity := Nat.mod_lt _ hc
    have hex : ∃ i, i < m.capacity ∧ probeStop m.data h i = true := by
      refine ⟨e, he, ?_⟩
      unfold probeStop
      rw [hedata]
    obtain ⟨d, hd, hstop, hbefore, hpr⟩ := probeIdx_success hInv.cap_pow home_lt hex
    have hidxlt : (h % m.capacity + d) % m.capacity < m.capacity := Nat.mod_lt _ hc
    have hemp2 : m.data.getD ((h % m.capacity + d) % m.capacity) .Empty = .Empty := by
      rcases hcase : m.data.getD ((h % m.capacity + d) % m.capacity) .Empty with _ | n2
      · rfl
      · exfalso
        unfold probeStop at hstop
        rw [hcase] at hstop
        exact hpres _ n2 hidxlt hcase (by simpa using hstop)
    have hpath : ∀ t, t < d →
        (m.data.getD ((h % m.capacity + t) % m.capacity) .Empty).isOcc = true := by
      intro t ht
      have hb := hbefore t ht
      rcases hcase : m.data.getD ((h % m.capacity + t) % m.capacity) .Empty with _ | n2
      · exfalso
        unfold probeStop at hb
        rw [hcase] at hb
        cases hb
      · rfl
    have hfresh : ∀ n', bindsT m.capacity m.data n' → n'.hash ≠ (⟨h, v⟩ : Node V).hash := by
      rintro n' ⟨i, hi, hoc⟩
      exact hpres i n' hi hoc
    obtain ⟨hnt', hu', hch', hbinds'⟩ :=
      @insert_fresh_extras V m.capacity m.ctrl m.data ⟨h, v⟩ ((h % m.capacity + d) % m.capacity)
        d hInv.table.ctrl_len hInv.table.data_len hNT hU hCh hfresh hc hd rfl hemp2 hpath
    have hpr2 : probeIdx (probeStop m.data h) m.capacity (modulo m.capacity h) m.capacity =
        some ((h % m.capacity + d) % m.capacity) := by
      rw [hmod]
      exact hpr
    have hs : setRaw m h v = some { m with
        ctrl := (if (h % m.capacity + d) % m.capacity < 16 then
            m.ctrl.set (m.capacity + (h % m.capacity + d) % m.capacity) (ctrlHash h)
          else m.ctrl).set ((h % m.capacity + d) % m.capacity) (ctrlHash h),
        len := m.len + 1,
        data := m.data.set ((h % m.capacity + d) % m.capacity) (.Occupied ⟨h, v⟩) } := by
      simp only [setRaw, hpr2]
    obtain ⟨hInv', hcap', hlen', hdel'⟩ := setRaw_inv hInv hroom hs
    refine ⟨_, hs, hInv', h16, hnt', hu', hch', ?_⟩
    intro h2 v2
    show bindsT m.capacity (m.data.set ((h % m.capacity + d) % m.capacity)
        (.Occupied ⟨h, v⟩)) ⟨h2, v2⟩ ↔ specGet ((h, v) :: model) h2 = some v2
    rw [hbinds' ⟨h2, v2⟩, specGet_cons]
    by_cases hhe : h2 = h
    · rw [if_pos hhe.symm]
      constructor
      · rintro (heq | hb)
        · injection heq with e1 e2
          rw [e2]
        · exact absurd hhe (hfresh ⟨h2, v2⟩ hb)
      · intro hsome
        injection hsome with e1
        left
        rw [hhe, ← e1]
    · rw [if_neg (fun he => hhe he.symm)]
      constructor
      · rintro (heq | hb)
        · injection heq with e1 e2
          exact absurd e1 hhe
        · exact (hC h2 v2).1 hb
      · intro hsome
        exact Or.inr ((hC h2 v2).2 hsome)

theorem setMap_RFull {m : StampedeMap V} {model : List (Nat × V)} {h : Nat} {v : V}
    (hR : RFull m model) :
    ∃ m', setMap m h v = some m' ∧ RFull m' ((h, v) :: model) := by
  by_cases hex : exceededLoadFactor m = true
  · obtain ⟨m1, hres, hR1, hlen1, hdel1, hcap1⟩ := resizeMap_RFull hR
    have hroom : (m1.len + 1 + m1.deleted) * 4 ≤ m1.capacity * 3 + 4 := by
      rw [hlen1, hdel1, hcap1]
      have h2 := hR.1.load
      have h3 := hR.2.1
      omega
    have hocclt : occCount m1 < m1.capacity := by
      have h1 := hR1.1.occ_le_len
      have h2 := hR.1.load
      have h3 := hR.2.1
      rw [hlen1] at h1
      rw [hcap1]
      omega
    obtain ⟨m', hs, hR'⟩ := setRaw_RFull hR1 hroom hocclt
    refine ⟨m', ?_, hR'⟩
    rw [setMap, if_pos hex, hres]
    exact hs
  · have hexf : exceededLoadFactor m = false := by
      revert hex
      cases exceededLoadFactor m <;> simp
    have hnex : ¬(m.capacity * 3 < (m.len + m.deleted) * 4) := by
      simpa [exceededLoadFactor] using hexf
    have hroom : (m.len + 1 + m.deleted) * 4 ≤ m.capacity * 3 + 4 := by omega
    have hocclt : occCount m < m.capacity := by
      have h1 := hR.1.occ_le_len
      have h3 := hR.2.1
      omega
    obtain ⟨m', hs, hR'⟩ := setRaw_RFull hR hroom hocclt
    refine ⟨m', ?_, hR'⟩
    rw [setMap, if_neg hex]
    exact hs

theorem RFull_fresh {cap : Nat} (hp : IsPow2 cap) (h16 : 16 ≤ cap) :
    RFull ({ data := List.replicate cap .Empty, len := 0, capacity := cap,
             ctrl := List.replicate (cap + 16) emptyByte, deleted := 0 } : StampedeMap V) [] := by
  refine ⟨inv_fresh cap hp, h16, ?_, ?_, ?_, ?_⟩
  · show NoTombT cap (List.replicate (cap + 16) emptyByte)
    intro i hi
    rw [getD_replicate, if_pos (show i < cap + 16 by omega)]
    unfold emptyByte deletedByte
    omega
  · show UniqueT cap (List.replicate cap (.Empty : Slot V))
    intro i j hi hj n n' hn hn' hh
    rw [getD_replicate, if_pos hi] at hn
    cases hn
  · show ChainsT cap (List.replicate cap (.Empty : Slot V))
    intro i n hi hn
    rw [getD_replicate, if_pos hi] at hn
    cases hn
  · intro h v
    constructor
    · rintro ⟨i, hi, hoc⟩
      have hi2 : i < cap := hi
      have hoc2 : (List.replicate cap (Slot.Empty : Slot V)).getD i .Empty =
          .Occupied ⟨h, v⟩ := hoc
      rw [getD_replicate, if_pos hi2] at hoc2
      cases hoc2
    · intro hsg
      simp [specGet] at hsg

theorem RFull_mapNew : RFull (mapNew : StampedeMap V) [] := by
  have h : (mapNew : StampedeMap V) =
      { data := List.replicate 16 .Empty, len := 0, capacity := 16,
        ctrl := List.replicate (16 + 16) emptyByte, deleted := 0 } := rfl
  rw [h]
  exact RFull_fresh ⟨4, by norm_num⟩ le_rfl

theorem RFull_withCapacity {n : Nat} (h9 : 9 ≤ n) :
    RFull (withCapacity n : StampedeMap V) [] := by
  rw [withCapacity_eq]
  exact RFull_fresh (nextPowerOfTwo_pow n)
    (pow2_ge_nine (nextPowerOfTwo_pow n) (le_trans h9 (nextPowerOfTwo_ge n)))

theorem runIns_RFull : ∀ (ins : List (Nat × V)) (m : StampedeMap V) (model : List (Nat × V)),
    RFull m model →
    ∃ m', run m (insProg ins) = some m' ∧
      RFull m' (ins.foldl (fun acc p => (p.1, p.2) :: acc) model) := by
  intro ins
  induction ins with
  | nil =>
    intro m model hR
    exact ⟨m, rfl, hR⟩
  | cons p rest ih =>
    intro m model hR
    obtain ⟨m1, hs, hR1⟩ := @setMap_RFull V m model p.1 p.2 hR
    obtain ⟨m', hr, hR'⟩ := ih m1 ((p.1, p.2) :: model) hR1
    refine ⟨m', ?_, hR'⟩
    show run m (insProg (p :: rest)) = some m'
    have hstep : insProg (p :: rest) = Op.set p.1 p.2 :: insProg rest := rfl
    rw [hstep, run]
    have happ : applyOp m (Op.set p.1 p.2) = some m1 := hs
    rw [happ]
    exact hr

theorem getMap_spec {m : StampedeMap V} {model : List (Nat × V)} (hR : RFull m model)
    (h : Nat) :
    getMap m h = (match specGet model h with
      | some v => GetResult.found v
      | none => GetResult.absent) := by
  obtain ⟨hInv, h16, hNT, hU, hCh, hC⟩ := hR
  cases hsg : specGet model h with
  | some v =>
    obtain ⟨i, hi, hslot⟩ := (hC h v).2 hsg
    exact getMap_found hInv h16 hU hCh hi hslot
  | none =>
    apply getMap_absent hInv h16
    intro i hi
    rcases hcase : m.data.getD i .Empty with _ | n2
    · rfl
    · obtain ⟨nh, nv⟩ := n2
      show (nh == h) = false
      refine beq_eq_false_iff_ne.2 ?_
      intro hcontra
      have hb := (hC nh nv).1 ⟨i, hi, hcase⟩
      rw [hcontra, hsg] at hb
      cases hb

theorem getLoop_spin_forever {m : StampedeMap V} {hash tag slot : Nat}
    (hstep : modulo m.capacity (slot + 16) = slot)
    (hscan : scanCands m.ctrl m.data m.capacity tag hash slot
      (iterate (windowMask m.ctrl slot tag ||| windowMask m.ctrl slot emptyByte)) = none) :
    ∀ fuel, getLoop m hash tag slot fuel = .spin := by
  intro fuel
  induction fuel with
  | zero => rfl
  | succ fuel ih =>
    rw [getLoop, hscan, hstep]
    exact ih

theorem full_small_table_get_diverges : ∀ fuel,
    getLoop ((run (withCapacity 3 : StampedeMap Nat)
        [.set 0 0, .set 1 0, .set 2 0, .set 3 0]).getD mapNew) 4 4 0 fuel = .spin := by
  apply getLoop_spin_forever
  · decide
  · decide

theorem full_small_table_delete_diverges : ∀ fuel,
    probeIdx (probeStop ((run (withCapacity 3 : StampedeMap Nat)
        [.set 0 0, .set 1 0, .set 2 0, .set 3 0]).getD mapNew).data 4) 4 0 fuel = none :=
  fun _ => probeIdx_none_of_all_false (by decide) (by decide) (by decide)

/-- C1: evaluation of the code at the failing input.  After the operation sequence
`set h16 5; set h0 1; delete h16; set h0 2; delete h0` (hashes 16 and 0 share home
slot 0 of a fresh capacity-16 map), the key with hash 0 was deleted after its most
recent `set`, so the claim demands `get 0 = None`; the code instead resurfaces the
stale first value 1, because the second `set 0` was placed in the tombstone left by
`delete 16`, giving two slots with hash 0, and `delete 0` removed only the newer one. -/
theorem C1_stale_value_after_delete :
    (run (mapNew : StampedeMap Nat)
      [.set 16 5, .set 0 1, .del 16, .set 0 2, .del 0]).map (fun m => getMap m 0) =
      some (.found 1) := by
  decide

/-- C2: evaluation of the code at the failing input.  Setting the same hash twice
leaves one live key, but `set` increments `len` unconditionally, so `len = 2`
(the overwrite itself does happen: `get` returns the new value). -/
theorem C2_len_inflated_on_overwrite :
    (run (mapNew : StampedeMap Nat) [.set 0 1, .set 0 2]).map
      (fun m => (m.len, getMap m 0)) = some (2, .found 2) := by
  decide

/-- C3 (counterexample): `with_capacity(0)` yields capacity 1, not
`max(16, next_power_of_two(0)) = 16`. -/
theorem C3_capacity_counterexample :
    (withCapacity 0 : StampedeMap Nat).capacity = 1 ∧
      (withCapacity 0 : StampedeMap Nat).capacity ≠ 16 := by
  decide

/-- C3 (amended): `with_capacity(n)` returns an empty map whose capacity equals
`next_power_of_two(n)` (which is 1 for `n = 0`, without the `max` with 16); this
coincides with `max(16, next_power_of_two(n))` for `n ≥ 16`; and the capacity is a
power of two after every public operation. -/
theorem C3_with_capacity_amended (V : Type) (n : Nat) :
    (withCapacity n : StampedeMap V).capacity = nextPowerOfTwo n ∧
    (withCapacity n : StampedeMap V).len = 0 ∧
    (16 ≤ n → (withCapacity n : StampedeMap V).capacity = max 16 (nextPowerOfTwo n)) ∧
    ∀ prog m', run (withCapacity n : StampedeMap V) prog = some m' → IsPow2 m'.capacity := by
  refine ⟨by rw [withCapacity_eq], by rw [withCapacity_eq], ?_, ?_⟩
  · intro h16
    rw [withCapacity_eq]
    show nextPowerOfTwo n = max 16 (nextPowerOfTwo n)
    have := nextPowerOfTwo_ge n
    rw [Nat.max_eq_right (by omega)]
  · intro prog m' hr
    exact (run_inv (inv_withCapacity n) hr).1.cap_pow

/-- C3 (witness). -/
theorem C3_witness :
    (withCapacity 20 : StampedeMap Nat).capacity = max 16 (nextPowerOfTwo 20) ∧
      IsPow2 ((run (withCapacity 20 : StampedeMap Nat) []).getD mapNew).capacity :=
  ⟨(C3_with_capacity_amended Nat 20).2.2.1 (by norm_num),
   (C3_with_capacity_amended Nat 20).2.2.2 [] _ (by decide)⟩

/-- C4 (counterexample): after `with_capacity(0)` and one `set`, the tail mirror
fails: with capacity 1 the mirror write lands inside the head band. -/
theorem C4_mirror_counterexample :
    (run (withCapacity 0 : StampedeMap Nat) [.set 0 1]).map
      (fun m => decide (tailMirror m)) = some false := by
  decide

/-- C4 (amended): the tail mirror `ctrl[i] = ctrl[capacity + i]` for `i < 16` holds
after every public operation provided the capacity is at least 16 — in particular
for every map built by `new()`, and for `with_capacity(n)` with `n ≥ 9`; maps of
capacity below 16 (from small `with_capacity`) violate it. -/
theorem C4_tail_mirror_amended (V : Type) (prog : List (Op V)) :
    (∀ m', run (mapNew : StampedeMap V) prog = some m' → tailMirror m') ∧
    (∀ n m', 9 ≤ n → run (withCapacity n : StampedeMap V) prog = some m' → tailMirror m') := by
  constructor
  · intro m' hr
    obtain ⟨hinv, hcap⟩ := run_inv inv_mapNew hr
    exact inv_tailMirror hinv (le_trans le_rfl hcap)
  · intro n m' h9 hr
    obtain ⟨hinv, hcap⟩ := run_inv (inv_withCapacity n) hr
    exact inv_tailMirror hinv (le_trans (withCapacity_ge16 h9) hcap)

/-- C4 (witness). -/
theorem C4_witness :
    tailMirror ((run (mapNew : StampedeMap Nat) [Op.set 3 5]).getD mapNew) :=
  (C4_tail_mirror_amended Nat [Op.set 3 5]).1 _ (by decide)

/-- C5 (counterexample): thirteen inserts of distinct hashes into `new()` leave
`len = 13`, `deleted = 0`, `capacity = 16`, violating `(len+deleted)*4 ≤ capacity*3`
(52 > 48): the load check runs before the insert, so the 13th insert overshoots and
the resize only happens at the start of the next `set`. -/
theorem C5_load_counterexample :
    (run (mapNew : StampedeMap Nat)
      [.set 0 0, .set 1 0, .set 2 0, .set 3 0, .set 4 0, .set 5 0, .set 6 0, .set 7 0,
       .set 8 0, .set 9 0, .set 10 0, .set 11 0, .set 12 0]).map
      (fun m => decide ((m.len + m.deleted) * 4 ≤ m.capacity * 3)) = some false := by
  decide

/-- C5 (amended): after every public operation, `(len + deleted) * 4 ≤ capacity * 3 + 4`
— the load factor can exceed 3/4 by exactly one insert, because `set` checks the bound
before inserting. -/
theorem C5_load_bound_amended (V : Type) (prog : List (Op V)) :
    (∀ m', run (mapNew : StampedeMap V) prog = some m' →
      (m'.len + m'.deleted) * 4 ≤ m'.capacity * 3 + 4) ∧
    ∀ n m', run (withCapacity n : StampedeMap V) prog = some m' →
      (m'.len + m'.deleted) * 4 ≤ m'.capacity * 3 + 4 := by
  constructor
  · intro m' hr
    exact (run_inv inv_mapNew hr).1.load
  · intro n m' hr
    exact (run_inv (inv_withCapacity n) hr).1.load

/-- C5 (witness). -/
theorem C5_witness :
    (((run (mapNew : StampedeMap Nat) [Op.set 1 2]).getD mapNew).len +
        ((run (mapNew : StampedeMap Nat) [Op.set 1 2]).getD mapNew).deleted) * 4 ≤
      ((run (mapNew : StampedeMap Nat) [Op.set 1 2]).getD mapNew).capacity * 3 + 4 :=
  (C5_load_bound_amended Nat [Op.set 1 2]).1 _ (by decide)

/-- C6: evaluation of the code at the failing input.  After `set 0; delete 0; set 0`,
the second `set` reuses the tombstoned slot but never decrements `deleted`: the field
reads 1 while no control byte is `DELETED` (the claimed equality fails). -/
theorem C6_deleted_overcounts_tombstones :
    (run (mapNew : StampedeMap Nat) [.set 0 1, .del 0, .set 0 2]).map
      (fun m => (m.deleted, tombCount m)) = some (1, 0) := by
  decide

/-- C8 (counterexample): a `with_capacity(3)` map (capacity 4) filled with four
distinct hashes makes `get` of the absent hash 4 spin forever (every probe window
repeats) and `delete 4` loop forever as well: neither "returns None" nor is a no-op. -/
theorem C8_absent_key_counterexample :
    (run (withCapacity 3 : StampedeMap Nat) [.set 0 0, .set 1 0, .set 2 0, .set 3 0]).map
      (fun m => (getMap m 4, deleteMap m 4)) = some (.spin, none) := by
  decide

/-- C9: for every 16-bit mask, iterating the `BitMask` yields exactly the set-bit
offsets of the mask (all below 16), in strictly ascending order — hence each offset at
most once; each step yields the count of trailing zeros and clears the lowest set bit
(`mask &= mask - 1`), and iteration terminates with the empty remainder exactly when
the mask is exhausted. -/
theorem C9_bitmask_iteration (mask : Nat) (hmask : mask < 65536) :
    List.Sorted (fun a b => a < b) (iterate mask) ∧
    (∀ i, i ∈ iterate mask ↔ mask.testBit i = true) ∧
    (∀ i, i ∈ iterate mask → i < 16) ∧
    (mask ≠ 0 → iterate mask = ctz mask :: iterate (mask &&& (mask - 1))) ∧
    iterate 0 = ([] : List Nat) := by
  refine ⟨iterate_sorted mask, mem_iterate mask, ?_, fun h => iterate_step h, rfl⟩
  intro i hi
  exact mem_iterate_lt (show mask < 2 ^ 16 by norm_num; omega) hi

/-- C9 (witness). -/
theorem C9_bitmask_iteration_witness :
    List.Sorted (fun a b => a < b) (iterate 11) ∧
    (∀ i, i ∈ iterate 11 ↔ (11 : Nat).testBit i = true) ∧
    (∀ i, i ∈ iterate 11 → i < 16) ∧
    ((11 : Nat) ≠ 0 → iterate 11 = ctz 11 :: iterate (11 &&& (11 - 1))) ∧
    iterate 0 = ([] : List Nat) :=
  C9_bitmask_iteration 11 (by norm_num)

/-- C10: in every state reachable from `new()` by `set`, `delete` and `clear`, a
control byte in the tag range `[0, 0x80)` always sits on an occupied data slot whose
hash has that byte as its low 7 bits; consequently the `unreachable!()` branch of
`get` (a tag-matching byte over an `Empty` data slot) is never taken and `get` never
panics. -/
theorem C10_tag_coherent_no_panic (V : Type) (prog : List (Op V)) (m' : StampedeMap V)
    (hr : run (mapNew : StampedeMap V) prog = some m') :
    (∀ p, p < m'.capacity → m'.ctrl.getD p 0 < 128 →
      ∃ nd, m'.data.getD p .Empty = .Occupied nd ∧ ctrlHash nd.hash = m'.ctrl.getD p 0) ∧
    ∀ h, getMap m' h ≠ .panic := by
  obtain ⟨hinv, _⟩ := run_inv inv_mapNew hr
  refine ⟨?_, fun h => getMap_ne_panic hinv h⟩
  intro p hp hlt
  exact (hinv.table.coh p hp).tag_occupied hlt

/-- C10 (witness). -/
theorem C10_witness :
    (∀ p, p < ((run (mapNew : StampedeMap Nat) [Op.set 7 1, Op.del 7]).getD mapNew).capacity →
      ((run (mapNew : StampedeMap Nat) [Op.set 7 1, Op.del 7]).getD mapNew).ctrl.getD p 0 < 128 →
      ∃ nd, ((run (mapNew : StampedeMap Nat) [Op.set 7 1, Op.del 7]).getD mapNew).data.getD p
          .Empty = .Occupied nd ∧
        ctrlHash nd.hash =
          ((run (mapNew : StampedeMap Nat) [Op.set 7 1, Op.del 7]).getD mapNew).ctrl.getD p 0) ∧
    ∀ h, getMap ((run (mapNew : StampedeMap Nat) [Op.set 7 1, Op.del 7]).getD mapNew) h ≠
      .panic :=
  C10_tag_coherent_no_panic Nat [Op.set 7 1, Op.del 7] _ (by decide)

/-- C7: performing the same insertions in the same order yields the same `get` answers
for every key, regardless of how many intermediate resizes were triggered: a map built
by `new()` and a map built by `with_capacity n` for any `n ≥ 9` (hence any larger
initial capacity, triggering a different number of intermediate resizes) complete the
identical insertion sequence and agree on `get` for every hash. -/
theorem C7_resize_preserves_get (V : Type) (n : Nat) (h9 : 9 ≤ n) (ins : List (Nat × V)) :
    ∃ m1 m2, run (mapNew : StampedeMap V) (insProg ins) = some m1 ∧
      run (withCapacity n : StampedeMap V) (insProg ins) = some m2 ∧
      ∀ h, getMap m1 h = getMap m2 h := by
  obtain ⟨m1, hr1, hR1⟩ := runIns_RFull ins mapNew [] RFull_mapNew
  obtain ⟨m2, hr2, hR2⟩ := runIns_RFull ins (withCapacity n) [] (RFull_withCapacity h9)
  refine ⟨m1, m2, hr1, hr2, fun h => ?_⟩
  rw [getMap_spec hR1 h, getMap_spec hR2 h]

/-- C7 (witness). -/
theorem C7_witness :
    ∃ m1 m2, run (mapNew : StampedeMap Nat) (insProg [(0, 5)]) = some m1 ∧
      run (withCapacity 16 : StampedeMap Nat) (insProg [(0, 5)]) = some m2 ∧
      ∀ h, getMap m1 h = getMap m2 h :=
  C7_resize_preserves_get Nat 16 (by norm_num) [(0, 5)]

end Stampede
